import Mathlib

/-!
Shallow embedding of the `kvs` log-structured key-value engine
(`src/lib.rs`, `KvStore` and its `KvsEngine` impl).

Modelling conventions:
* Rust `String`s (keys, values) and file contents are byte sequences,
  modelled as `List Nat`.
* The on-disk log file is carried in the engine state (`State.file`);
  the reader/writer cursors need not be modelled because every read
  seeks absolutely and every write appends at the tracked position.
* `serde_json` encoding of the `Command` enum is modelled byte for byte
  (externally tagged variant, `{"Set":{"key":...,"value":...}}`, with
  serde_json's string escaping).  The decoder accepts the record syntax
  the engine itself writes, plus surrounding JSON whitespace, mirroring
  `serde_json::from_str`'s tolerance of leading/trailing whitespace.
* `HashMap<String, CommandPos>` is modelled as an association list with
  no duplicate keys; `insert` replaces in place, `remove` deletes.
* The `f32` arithmetic in `should_compact` is modelled exactly: IEEE-754
  single precision values are represented as the rationals they denote,
  `usize as f32` and `f32` division round to nearest, ties to even
  (no overflow/subnormals occur in the exercised range).
* Rust panics (`unreachable!`, the `panic!` in `compact`) and
  propagated I/O or serde errors are modelled as `Except`-style errors.
-/

namespace Kvs

/-- the command the kvs engine will execute (Rust enum `Command`). -/
inductive Command where
  /-- set a value for a key -/
  | Set (key : List Nat) (value : List Nat)
  /-- retrieve a value for a key -/
  | Get (key : List Nat)
  /-- remove a key/value pairing -/
  | Remove (key : List Nat)
deriving DecidableEq, Repr

/-- lowercase hex digit byte for a nibble, as serde_json emits in `\u00XX` escapes. -/
def hexDig (n : Nat) : Nat := if n < 10 then 48 + n else 87 + n

/-- serde_json string escaping of a single byte: `"` and `\` get a backslash,
the control characters 0x08/0x09/0x0A/0x0C/0x0D become `\b \t \n \f \r`,
the remaining control characters become `\u00XX`, everything else is verbatim. -/
def escByte (b : Nat) : List Nat :=
  if b = 34 then [92, 34]
  else if b = 92 then [92, 92]
  else if b = 8 then [92, 98]
  else if b = 9 then [92, 116]
  else if b = 10 then [92, 110]
  else if b = 12 then [92, 102]
  else if b = 13 then [92, 114]
  else if b < 32 then [92, 117, 48, 48, hexDig (b / 16), hexDig (b % 16)]
  else [b]

/-- serde_json string escaping of a byte string. -/
def esc (s : List Nat) : List Nat := s.flatMap escByte

/-- the exact byte sequence `serde_json::to_string`/`to_writer` produces for a
`Command` value: an externally tagged variant object on one line.
Byte literals: `{`=123 `}`=125 `"`=34 `:`=58 `,`=44 and the ASCII letters of
`Set`/`Get`/`Remove`/`key`/`value`. -/
def encode : Command → List Nat
  | .Set k v =>
      123 :: 34 :: 83 :: 101 :: 116 :: 34 :: 58 :: 123 :: 34 :: 107 :: 101 :: 121 :: 34 :: 58 :: 34 ::
        (esc k ++ (34 :: 44 :: 34 :: 118 :: 97 :: 108 :: 117 :: 101 :: 34 :: 58 :: 34 ::
          (esc v ++ [34, 125, 125])))
  | .Remove k =>
      123 :: 34 :: 82 :: 101 :: 109 :: 111 :: 118 :: 101 :: 34 :: 58 :: 123 :: 34 :: 107 :: 101 :: 121 :: 34 :: 58 :: 34 ::
        (esc k ++ [34, 125, 125])
  | .Get k =>
      123 :: 34 :: 71 :: 101 :: 116 :: 34 :: 58 :: 123 :: 34 :: 107 :: 101 :: 121 :: 34 :: 58 :: 34 ::
        (esc k ++ [34, 125, 125])

/-- JSON whitespace bytes (space, tab, line feed, carriage return). -/
def isWs (b : Nat) : Bool := b = 32 || b = 9 || b = 10 || b = 13

/-- drop leading JSON whitespace. -/
def skipWs : List Nat → List Nat
  | [] => []
  | b :: r => if isWs b then skipWs r else b :: r

/-- consume one expected byte. -/
def expect (b : Nat) : List Nat → Option (List Nat)
  | [] => none
  | c :: r => if c = b then some r else none

/-- value of a hex digit byte (decoder side; serde emits lowercase). -/
def hexVal (c : Nat) : Option Nat :=
  if 48 ≤ c ∧ c ≤ 57 then some (c - 48)
  else if 97 ≤ c ∧ c ≤ 102 then some (c - 87)
  else if 65 ≤ c ∧ c ≤ 70 then some (c - 55)
  else none

/-- the byte denoted by a single-character escape (decoder side). -/
def unescChar (e : Nat) : Option Nat :=
  if e = 34 then some 34 else if e = 92 then some 92
  else if e = 98 then some 8 else if e = 116 then some 9
  else if e = 110 then some 10 else if e = 102 then some 12
  else if e = 114 then some 13 else none

/-- decoder state while scanning a JSON string body: plain bytes, just
after a backslash, or inside a `\uXXXX` escape with `k` digits still to
read and `acc` the value read so far. -/
inductive EscSt where
  | norm
  | escaped
  | hex (k : Nat) (acc : Nat)

/-- scan the body of a JSON string one byte at a time (after the opening
quote) up to its closing quote, unescaping the escapes the engine's
encoder can emit (`\uXXXX` only for ASCII code points, which is all the
encoder produces).  Returns the unescaped content and the rest. -/
def parseStrS : EscSt → List Nat → Option (List Nat × List Nat)
  | _, [] => none
  | .norm, b :: rest =>
    if b = 34 then some ([], rest)
    else if b = 92 then parseStrS .escaped rest
    else (parseStrS .norm rest).map (fun p => (b :: p.1, p.2))
  | .escaped, e :: rest =>
    if e = 117 then parseStrS (.hex 4 0) rest
    else
      match unescChar e with
      | some ch => (parseStrS .norm rest).map (fun p => (ch :: p.1, p.2))
      | none => none
  | .hex k acc, h :: rest =>
    match hexVal h with
    | none => none
    | some d =>
      if k ≤ 1 then
        if 16 * acc + d < 128 then
          (parseStrS .norm rest).map (fun p => ((16 * acc + d) :: p.1, p.2))
        else none
      else parseStrS (.hex (k - 1) (16 * acc + d)) rest

/-- parse a JSON string body from its start. -/
def parseStr : List Nat → Option (List Nat × List Nat) := parseStrS .norm

/-- parse a quoted JSON string including its opening quote. -/
def parseQuoted (l : List Nat) : Option (List Nat × List Nat) :=
  (expect 34 l).bind parseStr

/-- byte strings of the names appearing in encoded records. -/
def tagSet : List Nat := [83, 101, 116]

/-- byte string of the `Remove` tag. -/
def tagRemove : List Nat := [82, 101, 109, 111, 118, 101]

/-- byte string of the `Get` tag. -/
def tagGet : List Nat := [71, 101, 116]

/-- byte string of the `key` field name. -/
def fieldKey : List Nat := [107, 101, 121]

/-- byte string of the `value` field name. -/
def fieldValue : List Nat := [118, 97, 108, 117, 101]

/-- decode one encoded `Command` record, modelling
`serde_json::from_str::<Command>` on the record syntax the engine writes:
the externally tagged object with fields in declaration order, with JSON
whitespace allowed around tokens and around the value, and nothing but
whitespace after it. -/
def decode (l : List Nat) : Option Command :=
  (expect 123 (skipWs l)).bind fun l1 =>
  (parseQuoted (skipWs l1)).bind fun (tag, l2) =>
  (expect 58 (skipWs l2)).bind fun l3 =>
  (expect 123 (skipWs l3)).bind fun l4 =>
  (parseQuoted (skipWs l4)).bind fun (f1, l5) =>
  if f1 = fieldKey then
    (expect 58 (skipWs l5)).bind fun l6 =>
    (parseQuoted (skipWs l6)).bind fun (key, l7) =>
    if tag = tagSet then
      (expect 44 (skipWs l7)).bind fun l8 =>
      (parseQuoted (skipWs l8)).bind fun (f2, l9) =>
      if f2 = fieldValue then
        (expect 58 (skipWs l9)).bind fun l10 =>
        (parseQuoted (skipWs l10)).bind fun (value, l11) =>
        (expect 125 (skipWs l11)).bind fun l12 =>
        (expect 125 (skipWs l12)).bind fun l13 =>
        if skipWs l13 = [] then some (.Set key value) else none
      else none
    else
      (expect 125 (skipWs l7)).bind fun l8 =>
      (expect 125 (skipWs l8)).bind fun l9 =>
      if skipWs l9 = [] then
        if tag = tagRemove then some (.Remove key)
        else if tag = tagGet then some (.Get key)
        else none
      else none
  else none

/-- round a nonnegative integer fraction `n / d` to the nearest integer,
ties to even (the IEEE-754 default rounding applied to a scaled significand). -/
def rndNE (n d : Nat) : Nat :=
  n / d +
    (if d ≤ 2 * (n % d) then
      (if 2 * (n % d) = d then (n / d) % 2 else 1)
     else 0)

/-- fuelled floor base-2 logarithm (structurally recursive so that the
kernel can evaluate it). -/
def log2Aux : Nat → Nat → Nat
  | 0, _ => 0
  | fuel + 1, n => if 2 ≤ n then log2Aux fuel (n / 2) + 1 else 0

/-- floor of the base-2 logarithm of a positive natural number. -/
def nlog2 (n : Nat) : Nat := log2Aux n n

/-- whether `b * 2^d ≤ a` for an integer exponent `d`, i.e. `2^d ≤ a / b`. -/
def scaledLe (b : Nat) (d : ℤ) (a : Nat) : Bool :=
  if 0 ≤ d then decide (b * 2 ^ d.toNat ≤ a) else decide (b ≤ a * 2 ^ (-d).toNat)

/-- a nonnegative finite IEEE-754 single-precision value, represented as
the rational it denotes: a significand and a binary exponent, denoting
`s * 2^e` (zero is `s = 0`).  Nonzero rounded results keep
`2^23 ≤ s ≤ 2^24`. -/
structure F32 where
  s : Nat
  e : ℤ
deriving DecidableEq, Repr

/-- round the positive fraction `a / b` to 24 significant bits, round to
nearest with ties to even: returns the significand and the exponent `m`
with `2^m ≤ a/b < 2^(m+1)`; the denoted value is `s * 2^(m-23)`. -/
def roundSig (a b : Nat) : Nat × ℤ :=
  let d : ℤ := (nlog2 a : ℤ) - (nlog2 b : ℤ)
  let m : ℤ := if scaledLe b d a then d else d - 1
  let t : ℤ := 23 - m
  let s := if 0 ≤ t then rndNE (a * 2 ^ t.toNat) b else rndNE a (b * 2 ^ (-t).toNat)
  (s, m)

/-- the value of `n as f32` for a `usize` counter `n` (round to nearest,
ties to even; exact for `n ≤ 2^24`, no overflow below `2^128`). -/
def toF32 (n : Nat) : F32 :=
  if n = 0 then ⟨0, 0⟩ else
  let p := roundSig n 1
  ⟨p.1, p.2 - 23⟩

/-- IEEE-754 single-precision division of two nonnegative in-range values
(the divisor nonzero), correctly rounded to nearest, ties to even. -/
def divF32 (x y : F32) : F32 :=
  if x.s = 0 then ⟨0, 0⟩ else
  let p := roundSig x.s y.s
  ⟨p.1, p.2 - 23 + x.e - y.e⟩

/-- whether an `F32` exceeds `0.5`, i.e. `1 < s * 2^(e+1)`. -/
def gtHalfF32 (x : F32) : Bool :=
  let k : ℤ := x.e + 1
  if 0 ≤ k then decide (1 < x.s * 2 ^ k.toNat) else decide (2 ^ (-k).toNat < x.s)

/-- `KvStore::should_compact`:
`self.num_unnecessary_entries as f32 / self.index.len() as f32 > COMPACTION_THRESHOLD`
with `COMPACTION_THRESHOLD = 0.5`.  When `len = 0` the Rust expression divides
by `0.0`: `0.0/0.0` is NaN (every comparison false) and `x/0.0` for `x > 0` is
`+inf` (greater than `0.5`); the `if` reproduces exactly that. -/
def shouldCompact (num len : Nat) : Bool :=
  if len = 0 then decide (num ≠ 0)
  else gtHalfF32 (divF32 (toF32 num) (toF32 len))

/-- the rational value denoted by an `F32` (for specification only). -/
def f32Val (x : F32) : ℚ := (x.s : ℚ) * (2 : ℚ) ^ x.e

/-- where in the log file the value resides (Rust struct `CommandPos`):
`pos` is the byte offset of the command in the file, `len` its recorded
byte length. -/
structure CommandPos where
  pos : Nat
  len : Nat
deriving DecidableEq, Repr

/-- errors surfaced by the engine (`failure::Error` values in the source,
distinguished here by provenance): the `"Key not found"` error of `remove`,
an injected I/O error, and decode failures / panics on malformed or
unexpected records. -/
inductive Err where
  | keyNotFound
  | ioError
  | corrupt
deriving DecidableEq, Repr

deriving instance DecidableEq for Except

/-- the engine state (Rust struct `KvStore`): the log file's byte content,
the in-memory index (association list standing in for `HashMap`), the
redundant-entry counter `num_unnecessary_entries`, and the write-position
counter `num_bytes_written` of `BufWriterWithPosition`. -/
structure State where
  file : List Nat
  index : List (List Nat × CommandPos)
  numUnnecessaryEntries : Nat
  numBytesWritten : Nat
deriving DecidableEq, Repr

/-- `HashMap::get` on the association-list index. -/
def lookupIdx (l : List (List Nat × CommandPos)) (k : List Nat) : Option CommandPos :=
  (l.find? (fun p => p.1 = k)).map (·.2)

/-- `HashMap::insert` (replaces an existing binding in place). -/
def insertIdx (l : List (List Nat × CommandPos)) (k : List Nat) (v : CommandPos) :
    List (List Nat × CommandPos) :=
  match l with
  | [] => [(k, v)]
  | (k', v') :: r => if k' = k then (k, v) :: r else (k', v') :: insertIdx r k v

/-- `HashMap::remove`. -/
def eraseIdx (l : List (List Nat × CommandPos)) (k : List Nat) :
    List (List Nat × CommandPos) :=
  match l with
  | [] => []
  | (k', v') :: r => if k' = k then r else (k', v') :: eraseIdx r k

/-- the byte range `[pos, pos+len)` of the file, as read by seeking to
`command_pos.pos` and `take(command_pos.len)`; reading past end of file
yields only the available bytes, as `read_to_string` on a `Take` does. -/
def readRange (f : List Nat) (p : CommandPos) : List Nat :=
  (f.drop p.pos).take p.len

/-- split a file into lines exactly as `BufRead::lines` yields them:
separators are `\n` (byte 10) and a trailing newline produces no final
empty line.  (The engine's own records never contain a bare `\r`,
so CRLF stripping never fires on engine-produced files.) -/
def splitLines : List Nat → List (List Nat)
  | [] => []
  | b :: r =>
    if b = 10 then [] :: splitLines r
    else
      match splitLines r with
      | [] => [[b]]
      | line :: rest => (b :: line) :: rest

/-- the recovery loop of `KvStore::open`: fold over the decoded lines,
carrying the index, `num_unnecessary_entries` and the running byte offset
`bytes_read`.  A line that fails to decode propagates the serde error;
a `Get` record hits the source's `unreachable!`, modelled as an error. -/
def openLines :
    List (List Nat) → List (List Nat × CommandPos) → Nat → Nat →
    Except Err (List (List Nat × CommandPos) × Nat × Nat)
  | [], idx, num, pos => .ok (idx, num, pos)
  | line :: rest, idx, num, pos =>
    match decode line with
    | none => .error .corrupt
    | some (.Set k _) =>
        openLines rest (insertIdx idx k ⟨pos, line.length⟩)
          (if (lookupIdx idx k).isSome then num + 1 else num)
          (pos + line.length + 1)
    | some (.Remove k) =>
        openLines rest (eraseIdx idx k) num (pos + line.length + 1)
    | some (.Get _) => .error .corrupt

/-- `KvStore::open` on a directory whose `kvs.log` holds the given bytes
(an absent log file reads as empty): replay the log to rebuild the index,
the redundant-entry counter and the write position. -/
def openStore (f : List Nat) : Except Err State :=
  (openLines (splitLines f) [] 0 0).map fun r =>
    { file := f, index := r.1, numUnnecessaryEntries := r.2.1, numBytesWritten := r.2.2 }

/-- the state right after `KvStore::open` on a fresh directory. -/
def emptyStore : State :=
  { file := [], index := [], numUnnecessaryEntries := 0, numBytesWritten := 0 }

/-- the body of `KvStore::compact`'s copy loop: for each index entry, seek
to the record, read `len` bytes, decode, and append the re-serialized `Set`
record plus a newline to the new log; a non-`Set` record hits the source's
`panic!`, and a decode failure propagates the serde error. -/
def compactCore (f : List Nat) :
    List (List Nat × CommandPos) → Except Err (List Nat)
  | [] => .ok []
  | (_, p) :: rest =>
    match decode (readRange f p) with
    | some (.Set k v) =>
        (compactCore f rest).map fun tail => encode (.Set k v) ++ 10 :: tail
    | some _ => .error .corrupt
    | none => .error .corrupt

/-- the bytes that end up in `kvs.log` after compaction, given the content
`stale` that `dir/kvs_temp.log` held beforehand: the temp file is opened
with `create(true).write(true)` and **no truncation**, so writing starts at
offset 0 and any stale bytes beyond the written region survive the rename. -/
def compactFileWith (s : State) (stale : List Nat) : Except Err (List Nat) :=
  (compactCore s.file s.index).map fun w => w ++ stale.drop w.length

/-- `KvStore::compact` given the prior content of `kvs_temp.log`: write the
live records, rename over `kvs.log`, then re-`open` the directory and swap
the freshly opened store into `self`. -/
def compactWith (s : State) (stale : List Nat) : Except Err State :=
  match compactFileWith s stale with
  | .error e => .error e
  | .ok newFile => openStore newFile

/-- fault injection for the two appends `set` performs (the serde record
write and the `b"\n"` write); `BufWriterWithPosition::write` flushes after
every write and counts only bytes reported written, so a failing record
write may leave any prefix of the record behind. -/
inductive SetFault where
  | none
  | failRecord (written : Nat)
  | failNewline
deriving DecidableEq, Repr

/-- the append-and-index part of `KvsEngine::set` for `KvStore` (everything
before the compaction check): bump `num_unnecessary_entries` if the key is
present, record `num_bytes_written` before the append, append the encoded
record and a newline, then insert
`CommandPos { pos: before, len: after - before }`. -/
def setAppend (s : State) (k v : List Nat) : State :=
  let num := if (lookupIdx s.index k).isSome then s.numUnnecessaryEntries + 1
             else s.numUnnecessaryEntries
  let record := encode (.Set k v)
  let before := s.numBytesWritten
  let after := before + record.length + 1
  { file := s.file ++ record ++ [10]
    index := insertIdx s.index k ⟨before, after - before⟩
    numUnnecessaryEntries := num
    numBytesWritten := after }

/-- `KvsEngine::set` for `KvStore`, with optional fault injection on the two
writes.  On the fault-free path the record and newline are appended, the
index updated, and compaction runs when `should_compact()` holds (with the
temp log absent: a fresh process run never leaves `kvs_temp.log` behind,
since each compaction renames it away).  On a faulted write the error is
returned after the counters have recorded the bytes actually written; the
index is not touched. -/
def set (s : State) (k v : List Nat) (fault : SetFault) : State × Option Err :=
  match fault with
  | .none =>
    let s1 := setAppend s k v
    if shouldCompact s1.numUnnecessaryEntries s1.index.length then
      match compactWith s1 [] with
      | .ok s2 => (s2, Option.none)
      | .error e => (s1, some e)
    else (s1, Option.none)
  | .failRecord j =>
    let num := if (lookupIdx s.index k).isSome then s.numUnnecessaryEntries + 1
               else s.numUnnecessaryEntries
    let part := (encode (.Set k v)).take j
    ({ s with numUnnecessaryEntries := num, file := s.file ++ part,
              numBytesWritten := s.numBytesWritten + part.length }, some .ioError)
  | .failNewline =>
    let num := if (lookupIdx s.index k).isSome then s.numUnnecessaryEntries + 1
               else s.numUnnecessaryEntries
    let record := encode (.Set k v)
    ({ s with numUnnecessaryEntries := num, file := s.file ++ record,
              numBytesWritten := s.numBytesWritten + record.length }, some .ioError)

/-- `KvsEngine::get` for `KvStore`: look up the index; on a hit, seek to
`pos`, read `len` bytes, decode (a serde failure propagates), and return
the value if the record is a `Set`; any other decoded variant falls
through to `Ok(None)`.  The state is unchanged. -/
def get (s : State) (k : List Nat) : Except Err (Option (List Nat)) :=
  match lookupIdx s.index k with
  | Option.none => .ok Option.none
  | some p =>
    match decode (readRange s.file p) with
    | Option.none => .error .corrupt
    | some (.Set _ v) => .ok (some v)
    | some _ => .ok Option.none

/-- `KvsEngine::remove` for `KvStore`: call `get`; if it errors, propagate;
if it returns a value, append a `Remove` record plus newline and delete the
index entry; otherwise return the `"Key not found"` error, touching
nothing. -/
def remove (s : State) (k : List Nat) : State × Option Err :=
  match get s k with
  | .error e => (s, some e)
  | .ok (some _) =>
    let record := encode (.Remove k)
    ({ file := s.file ++ record ++ [10]
       index := eraseIdx s.index k
       numUnnecessaryEntries := s.numUnnecessaryEntries
       numBytesWritten := s.numBytesWritten + record.length + 1 }, Option.none)
  | .ok Option.none => (s, some .keyNotFound)

/-- a mutating call in a client-visible trace. -/
inductive MutOp where
  | set (k v : List Nat)
  | remove (k : List Nat)
deriving DecidableEq, Repr

/-- run a trace of mutating calls, requiring every call to return
successfully (`none` if any call fails). -/
def execOps (s : State) : List MutOp → Option State
  | [] => some s
  | .set k v :: rest =>
    match set s k v .none with
    | (s', Option.none) => execOps s' rest
    | (_, some _) => Option.none
  | .remove k :: rest =>
    match remove s k with
    | (s', Option.none) => execOps s' rest
    | (_, some _) => Option.none

/-- Specification-side model (from the spec's words, for the refinement
claims): the value `get(k)` must observe after a trace is the value of the
last `set` for `k` not followed by a `remove` of `k`, and `none` for a
removed or never-set key. -/
def specLastWritten (ops : List MutOp) (k : List Nat) : Option (List Nat) :=
  ops.foldl
    (fun m op =>
      match op with
      | .set k' v => if k' = k then some v else m
      | .remove k' => if k' = k then Option.none else m)
    Option.none

/-- the effect of one successful mutating call on an abstract map (used to
relate a trace to the engine invariant). -/
def applyMutOp (m : List Nat → Option (List Nat)) : MutOp → (List Nat → Option (List Nat))
  | .set k v => fun k' => if k' = k then some v else m k'
  | .remove k => fun k' => if k' = k then Option.none else m k'

/-- the engine states reachable by opening a fresh directory and issuing
successful `set`/`remove` calls (with the compactions they trigger), and
closing/re-opening the store on its own log file; `get` does not change
the modelled state. -/
inductive Reachable : State → Prop where
  | base : Reachable emptyStore
  | set {s k v} : Reachable s → (set s k v .none).2 = Option.none →
      Reachable (set s k v .none).1
  | remove {s k} : Reachable s → (remove s k).2 = Option.none →
      Reachable (remove s k).1
  | reopen {s s'} : Reachable s → openStore s.file = .ok s' → Reachable s'

/-- whether a command is the `Get` variant (never written to the log). -/
def isGet : Command → Bool
  | .Get _ => true
  | _ => false

/-- whether a command is the `Set` variant. -/
def isSet : Command → Bool
  | .Set _ _ => true
  | _ => false

/-- the byte content of a log file holding the given records in order,
each encoded and followed by one newline. -/
def logOf (cmds : List Command) : List Nat :=
  cmds.flatMap fun c => encode c ++ [10]

/-- the effect of one log record on the abstract key-value map. -/
def applyCmd (M : List Nat → Option (List Nat)) : Command → (List Nat → Option (List Nat))
  | .Set k v => fun k' => if k' = k then some v else M k'
  | .Remove k => fun k' => if k' = k then Option.none else M k'
  | .Get _ => M

/-- replay a list of log records over an abstract map. -/
def applyCmds (M : List Nat → Option (List Nat)) (cmds : List Command) :
    List Nat → Option (List Nat) :=
  cmds.foldl applyCmd M

/-- the abstract map after replaying a log from scratch: the value of the
last `Set` for each key not followed by a `Remove` of that key. -/
def liveAfter (cmds : List Command) : List Nat → Option (List Nat) :=
  applyCmds (fun _ => Option.none) cmds

/-- agreement between an index and an abstract map over a file: exactly the
live keys are present, and each entry's byte range lies within `bound` and
decodes to the `Set` record carrying the key's live value. -/
def idxMatches (f : List Nat) (idx : List (List Nat × CommandPos)) (bound : Nat)
    (M : List Nat → Option (List Nat)) : Prop :=
  ∀ k, match M k with
    | Option.none => lookupIdx idx k = Option.none
    | some v => ∃ p, lookupIdx idx k = some p ∧ p.pos + p.len ≤ bound ∧
        decode (readRange f p) = some (.Set k v)

/-- the engine invariant tying a state to an abstract map: the file is a
well-formed log of non-`Get` records replaying to the map, the write
counter equals the file size, and the index has no duplicate keys and
agrees with the map. -/
def Inv (s : State) (M : List Nat → Option (List Nat)) : Prop :=
  (∃ cmds : List Command, (∀ c ∈ cmds, isGet c = false) ∧ s.file = logOf cmds ∧
      (∀ k, liveAfter cmds k = M k)) ∧
  s.numBytesWritten = s.file.length ∧
  (s.index.map Prod.fst).Nodup ∧
  idxMatches s.file s.index s.file.length M

/-! ### Codec lemmas: the decoder inverts the encoder -/

theorem hexVal_hexDig {n : Nat} (h : n < 16) : hexVal (hexDig n) = some n := by
  unfold hexVal hexDig
  split_ifs <;> simp_all <;> omega

theorem ten_not_mem_escByte (b : Nat) : 10 ∉ escByte b := by
  have h1 : ∀ m : Nat, hexDig m ≠ 10 := by
    intro m; unfold hexDig; split <;> omega
  intro hmem
  unfold escByte at hmem
  split_ifs at hmem <;>
    simp only [List.mem_cons, List.mem_singleton, List.not_mem_nil, or_false] at hmem
  all_goals try omega
  rcases hmem with h | h | h | h | h | h
  · omega
  · omega
  · omega
  · omega
  · exact h1 _ h.symm
  · exact h1 _ h.symm

theorem ten_not_mem_esc (s : List Nat) : 10 ∉ esc s := by
  intro hmem
  unfold esc at hmem
  rcases List.mem_flatMap.mp hmem with ⟨b, _, hb⟩
  exact ten_not_mem_escByte b hb

theorem ten_not_mem_encode (c : Command) : 10 ∉ encode c := by
  intro hmem
  cases c with
  | Set k v =>
    unfold encode at hmem
    simp at hmem
    rcases hmem with h | h
    · exact ten_not_mem_esc k h
    · exact ten_not_mem_esc v h
  | Get k =>
    unfold encode at hmem
    simp at hmem
    exact ten_not_mem_esc k hmem
  | Remove k =>
    unfold encode at hmem
    simp at hmem
    exact ten_not_mem_esc k hmem

theorem esc_cons (b : Nat) (s : List Nat) : esc (b :: s) = escByte b ++ esc s := by
  simp [esc]

theorem parseStr_esc (s r : List Nat) : parseStr (esc s ++ 34 :: r) = some (s, r) := by
  induction s with
  | nil => rfl
  | cons b s ih =>
    have ih' : parseStrS EscSt.norm (esc s ++ 34 :: r) = some (s, r) := ih
    rw [esc_cons, List.append_assoc]
    show parseStrS EscSt.norm (escByte b ++ (esc s ++ 34 :: r)) = _
    by_cases h34 : b = 34
    · subst h34; simp [escByte, parseStrS, unescChar, ih']
    by_cases h92 : b = 92
    · subst h92; simp [escByte, parseStrS, unescChar, ih']
    by_cases h8 : b = 8
    · subst h8; simp [escByte, parseStrS, unescChar, ih']
    by_cases h9 : b = 9
    · subst h9; simp [escByte, parseStrS, unescChar, ih']
    by_cases h10 : b = 10
    · subst h10; simp [escByte, parseStrS, unescChar, ih']
    by_cases h12 : b = 12
    · subst h12; simp [escByte, parseStrS, unescChar, ih']
    by_cases h13 : b = 13
    · subst h13; simp [escByte, parseStrS, unescChar, ih']
    by_cases hlt : b < 32
    · have hdiv : b / 16 < 16 := by omega
      have hmod : b % 16 < 16 := by omega
      have heb : escByte b = [92, 117, 48, 48, hexDig (b / 16), hexDig (b % 16)] := by
        unfold escByte
        simp only [h34, h92, h8, h9, h10, h12, h13, hlt, if_true, if_false,
          ite_true, ite_false]
      have hrec : 16 * (b / 16) + b % 16 = b := Nat.div_add_mod b 16
      have hsmall : 16 * (b / 16) + b % 16 < 128 := by omega
      rw [heb]
      show parseStrS .norm (92 :: 117 :: 48 :: 48 :: hexDig (b / 16) :: hexDig (b % 16)
        :: (esc s ++ 34 :: r)) = _
      simp only [parseStrS, show (92 : Nat) ≠ 34 from by omega, show (117 : Nat) = 117 from rfl,
        if_false, if_true, ite_true, ite_false, show hexVal 48 = some 0 from rfl,
        hexVal_hexDig hdiv, hexVal_hexDig hmod]
      norm_num
      rw [show (16 : Nat) * (b / 16) = 16 * (b / 16) from rfl]
      simp only [hsmall, if_true, ite_true, ih', Option.map_some]
      simp [hrec]
    · have heb : escByte b = [b] := by
        unfold escByte
        simp only [h34, h92, h8, h9, h10, h12, h13, hlt, if_true, if_false,
          ite_true, ite_false]
      rw [heb]
      show parseStrS .norm (b :: (esc s ++ 34 :: r)) = _
      simp only [parseStrS, h34, h92, if_false, ite_false, ih']
      rfl

theorem skipWs_allWs {t : List Nat} (h : ∀ b ∈ t, isWs b = true) : skipWs t = [] := by
  induction t with
  | nil => rfl
  | cons b r ih =>
    have hb := h b (by simp)
    simp [skipWs, hb]
    exact ih fun x hx => h x (by simp [hx])

theorem skipWs_notWs {b : Nat} (h : isWs b = false) (r : List Nat) :
    skipWs (b :: r) = b :: r := by
  simp [skipWs, h]

theorem decode_encode_ws (c : Command) (t : List Nat)
    (ht : ∀ b ∈ t, isWs b = true) : decode (encode c ++ t) = some c := by
  have hws := skipWs_allWs ht
  cases c with
  | Set k v =>
    simp only [encode, List.cons_append, List.append_assoc, List.nil_append]
    have hk : parseStrS EscSt.norm (esc k ++ 34 :: 44 :: 34 :: 118 :: 97 :: 108 :: 117
        :: 101 :: 34 :: 58 :: 34 :: (esc v ++ 34 :: 125 :: 125 :: t))
        = some (k, 44 :: 34 :: 118 :: 97 :: 108 :: 117 :: 101 :: 34 :: 58 :: 34
        :: (esc v ++ 34 :: 125 :: 125 :: t)) :=
      parseStr_esc k _
    have hv : parseStrS EscSt.norm (esc v ++ 34 :: 125 :: 125 :: t)
        = some (v, 125 :: 125 :: t) := parseStr_esc v _
    show (parseStrS EscSt.norm (esc k ++ 34 :: 44 :: 34 :: 118 :: 97 :: 108 :: 117
      :: 101 :: 34 :: 58 :: 34 :: (esc v ++ 34 :: 125 :: 125 :: t))).bind _ = _
    rw [hk]
    show (parseStrS EscSt.norm (esc v ++ 34 :: 125 :: 125 :: t)).bind _ = _
    rw [hv]
    show (if skipWs t = [] then some (Command.Set k v) else none) = _
    rw [hws]
    rfl
  | Remove k =>
    simp only [encode, List.cons_append, List.append_assoc, List.nil_append]
    have hk : parseStrS EscSt.norm (esc k ++ 34 :: 125 :: 125 :: t)
        = some (k, 125 :: 125 :: t) := parseStr_esc k _
    show (parseStrS EscSt.norm (esc k ++ 34 :: 125 :: 125 :: t)).bind _ = _
    rw [hk]
    show (if skipWs t = [] then some (Command.Remove k) else none) = _
    rw [hws]
    rfl
  | Get k =>
    simp only [encode, List.cons_append, List.append_assoc, List.nil_append]
    have hk : parseStrS EscSt.norm (esc k ++ 34 :: 125 :: 125 :: t)
        = some (k, 125 :: 125 :: t) := parseStr_esc k _
    show (parseStrS EscSt.norm (esc k ++ 34 :: 125 :: 125 :: t)).bind _ = _
    rw [hk]
    show (if skipWs t = [] then some (Command.Get k) else none) = _
    rw [hws]
    rfl

theorem decode_encode (c : Command) : decode (encode c) = some c := by
  have h := decode_encode_ws c [] (by simp)
  simpa using h

theorem decode_encode_newline (c : Command) : decode (encode c ++ [10]) = some c :=
  decode_encode_ws c [10] (by simp [isWs])

/-! ### Association-list index lemmas -/

theorem lookupIdx_nil (k : List Nat) : lookupIdx [] k = Option.none := rfl

theorem lookupIdx_cons (pk : List Nat) (pv : CommandPos) (r : List (List Nat × CommandPos))
    (k : List Nat) :
    lookupIdx ((pk, pv) :: r) k = if pk = k then some pv else lookupIdx r k := by
  by_cases h : pk = k <;> simp [lookupIdx, List.find?, h]

theorem insertIdx_cons (pk : List Nat) (pv : CommandPos) (r : List (List Nat × CommandPos))
    (k : List Nat) (v : CommandPos) :
    insertIdx ((pk, pv) :: r) k v =
      if pk = k then (k, v) :: r else (pk, pv) :: insertIdx r k v := rfl

theorem eraseIdx_cons (pk : List Nat) (pv : CommandPos) (r : List (List Nat × CommandPos))
    (k : List Nat) :
    eraseIdx ((pk, pv) :: r) k = if pk = k then r else (pk, pv) :: eraseIdx r k := rfl

theorem lookup_insert_self (l : List (List Nat × CommandPos)) (k : List Nat) (v : CommandPos) :
    lookupIdx (insertIdx l k v) k = some v := by
  induction l with
  | nil => simp [insertIdx, lookupIdx_cons]
  | cons p r ih =>
    obtain ⟨pk, pv⟩ := p
    rw [insertIdx_cons]
    by_cases hp : pk = k
    · simp [hp, lookupIdx_cons]
    · simp [hp, lookupIdx_cons, ih]

theorem lookup_insert_other (l : List (List Nat × CommandPos)) {k k' : List Nat}
    (v : CommandPos) (h : k' ≠ k) :
    lookupIdx (insertIdx l k v) k' = lookupIdx l k' := by
  induction l with
  | nil => simp [insertIdx, lookupIdx_cons, lookupIdx_nil, Ne.symm h]
  | cons p r ih =>
    obtain ⟨pk, pv⟩ := p
    rw [insertIdx_cons]
    by_cases hp : pk = k
    · subst hp
      rw [if_pos rfl]
      simp [lookupIdx_cons, show ¬(pk = k') from fun hh => h (hh.symm)]
    · rw [if_neg hp]
      simp [lookupIdx_cons, ih]

theorem lookup_erase_other (l : List (List Nat × CommandPos)) {k k' : List Nat}
    (h : k' ≠ k) : lookupIdx (eraseIdx l k) k' = lookupIdx l k' := by
  induction l with
  | nil => simp [eraseIdx]
  | cons p r ih =>
    obtain ⟨pk, pv⟩ := p
    rw [eraseIdx_cons]
    by_cases hp : pk = k
    · subst hp
      rw [if_pos rfl, lookupIdx_cons,
        if_neg (show ¬(pk = k') from fun hh => h (hh.symm))]
    · rw [if_neg hp]
      simp [lookupIdx_cons, ih]

theorem lookup_eq_none_of_not_mem (l : List (List Nat × CommandPos)) (k : List Nat)
    (h : k ∉ l.map Prod.fst) : lookupIdx l k = Option.none := by
  induction l with
  | nil => rfl
  | cons q r ih =>
    obtain ⟨qk, qv⟩ := q
    simp only [List.map_cons, List.mem_cons] at h
    push_neg at h
    rw [lookupIdx_cons, if_neg (fun hh => h.1 hh.symm)]
    exact ih h.2

theorem lookup_erase_self (l : List (List Nat × CommandPos)) (k : List Nat)
    (hnd : (l.map Prod.fst).Nodup) : lookupIdx (eraseIdx l k) k = Option.none := by
  induction l with
  | nil => simp [eraseIdx, lookupIdx_nil]
  | cons p r ih =>
    obtain ⟨pk, pv⟩ := p
    have hnd2 : (pk :: r.map Prod.fst).Nodup := by simpa using hnd
    have hni : pk ∉ r.map Prod.fst := (List.nodup_cons.mp hnd2).1
    have hnd' : (r.map Prod.fst).Nodup := (List.nodup_cons.mp hnd2).2
    rw [eraseIdx_cons]
    by_cases hp : pk = k
    · rw [if_pos hp]
      exact lookup_eq_none_of_not_mem r k (by rw [← hp]; exact hni)
    · rw [if_neg hp, lookupIdx_cons, if_neg hp]
      exact ih hnd'

theorem keys_insert_sub (l : List (List Nat × CommandPos)) (k : List Nat) (v : CommandPos) :
    ∀ q ∈ insertIdx l k v, q.1 = k ∨ q ∈ l := by
  induction l with
  | nil => simp [insertIdx]
  | cons p r ih =>
    obtain ⟨pk, pv⟩ := p
    intro q hq
    rw [insertIdx_cons] at hq
    by_cases hp : pk = k
    · rw [if_pos hp] at hq
      rcases List.mem_cons.mp hq with h | h
      · left; rw [h]
      · right; exact List.mem_cons_of_mem _ h
    · rw [if_neg hp] at hq
      rcases List.mem_cons.mp hq with h | h
      · right; rw [h]; exact List.mem_cons_self _ _
      · rcases ih q h with h' | h'
        · left; exact h'
        · right; exact List.mem_cons_of_mem _ h'

theorem keys_erase_sub (l : List (List Nat × CommandPos)) (k : List Nat) :
    ∀ q ∈ eraseIdx l k, q ∈ l := by
  induction l with
  | nil => simp [eraseIdx]
  | cons p r ih =>
    obtain ⟨pk, pv⟩ := p
    intro q hq
    rw [eraseIdx_cons] at hq
    by_cases hp : pk = k
    · rw [if_pos hp] at hq
      exact List.mem_cons_of_mem _ hq
    · rw [if_neg hp] at hq
      rcases List.mem_cons.mp hq with h | h
      · rw [h]; exact List.mem_cons_self _ _
      · exact List.mem_cons_of_mem _ (ih q h)

theorem nodup_insert (l : List (List Nat × CommandPos)) (k : List Nat) (v : CommandPos)
    (hnd : (l.map Prod.fst).Nodup) : ((insertIdx l k v).map Prod.fst).Nodup := by
  induction l with
  | nil => simp [insertIdx]
  | cons p r ih =>
    obtain ⟨pk, pv⟩ := p
    have hnd2 : (pk :: r.map Prod.fst).Nodup := by simpa using hnd
    have hni : pk ∉ r.map Prod.fst := (List.nodup_cons.mp hnd2).1
    have hnd' : (r.map Prod.fst).Nodup := (List.nodup_cons.mp hnd2).2
    rw [insertIdx_cons]
    by_cases hp : pk = k
    · subst hp
      rw [if_pos rfl]
      simp only [List.map_cons, List.nodup_cons]
      exact ⟨by simpa using hni, hnd'⟩
    · rw [if_neg hp]
      simp only [List.map_cons, List.nodup_cons]
      constructor
      · intro hmem
        rcases List.mem_map.mp hmem with ⟨q, hq, hq1⟩
        rcases keys_insert_sub r k v q hq with h | h
        · exact hp (by rw [← hq1, h])
        · exact hni (List.mem_map.mpr ⟨q, h, hq1⟩)
      · exact ih hnd'

theorem nodup_erase (l : List (List Nat × CommandPos)) (k : List Nat)
    (hnd : (l.map Prod.fst).Nodup) : ((eraseIdx l k).map Prod.fst).Nodup := by
  induction l with
  | nil => simp [eraseIdx]
  | cons p r ih =>
    obtain ⟨pk, pv⟩ := p
    have hnd2 : (pk :: r.map Prod.fst).Nodup := by simpa using hnd
    have hni : pk ∉ r.map Prod.fst := (List.nodup_cons.mp hnd2).1
    have hnd' : (r.map Prod.fst).Nodup := (List.nodup_cons.mp hnd2).2
    rw [eraseIdx_cons]
    by_cases hp : pk = k
    · rw [if_pos hp]; exact hnd'
    · rw [if_neg hp]
      simp only [List.map_cons, List.nodup_cons]
      constructor
      · intro hmem
        rcases List.mem_map.mp hmem with ⟨q, hq, hq1⟩
        exact hni (List.mem_map.mpr ⟨q, keys_erase_sub r k q hq, hq1⟩)
      · exact ih hnd'

theorem mem_of_lookup (l : List (List Nat × CommandPos)) (k : List Nat) (p : CommandPos)
    (h : lookupIdx l k = some p) : (k, p) ∈ l := by
  induction l with
  | nil => simp [lookupIdx] at h
  | cons q r ih =>
    obtain ⟨qk, qv⟩ := q
    rw [lookupIdx_cons] at h
    by_cases hq : qk = k
    · rw [if_pos hq] at h
      subst hq
      rw [Option.some_inj] at h
      subst h
      exact List.mem_cons_self _ _
    · rw [if_neg hq] at h
      exact List.mem_cons_of_mem _ (ih h)

/-! ### Byte-range lemmas -/

theorem readRange_append {f g : List Nat} {p : CommandPos}
    (h : p.pos + p.len ≤ f.length) : readRange (f ++ g) p = readRange f p := by
  unfold readRange
  rw [List.drop_append_of_le_length (by omega)]
  rw [List.take_append_of_le_length (by simp [List.length_drop]; omega)]

theorem readRange_at (pre enc rest : List Nat) :
    readRange (pre ++ enc ++ rest) ⟨pre.length, enc.length⟩ = enc := by
  unfold readRange
  simp only [List.append_assoc]
  rw [List.drop_append_of_le_length (le_refl _)]
  simp [List.take_left]

/-! ### Line-splitting lemmas -/

theorem splitLines_cons_newline (r : List Nat) : splitLines (10 :: r) = [] :: splitLines r := by
  simp [splitLines]

theorem splitLines_append {a : List Nat} (h : 10 ∉ a) (rest : List Nat) :
    splitLines (a ++ 10 :: rest) = a :: splitLines rest := by
  induction a with
  | nil => simp [splitLines]
  | cons b a ih =>
    have hb : b ≠ 10 := fun hh => h (by simp [hh])
    have ha : 10 ∉ a := fun hh => h (by simp [hh])
    rw [List.cons_append]
    simp [splitLines, hb, ih ha]

theorem splitLines_logOf (cmds : List Command) :
    splitLines (logOf cmds) = cmds.map encode := by
  induction cmds with
  | nil => rfl
  | cons c cmds ih =>
    have : logOf (c :: cmds) = encode c ++ 10 :: logOf cmds := by
      simp [logOf]
    rw [this, splitLines_append (ten_not_mem_encode c), ih, List.map_cons]

/-! ### Replay lemmas: `open` rebuilds the index of a well-formed log -/

theorem applyCmds_nil (M : List Nat → Option (List Nat)) : applyCmds M [] = M := rfl

theorem applyCmds_cons (M : List Nat → Option (List Nat)) (c : Command) (cmds : List Command) :
    applyCmds M (c :: cmds) = applyCmds (applyCmd M c) cmds := rfl

theorem logOf_cons (c : Command) (cmds : List Command) :
    logOf (c :: cmds) = encode c ++ 10 :: logOf cmds := by
  simp [logOf]

theorem idxMatches_congr {f : List Nat} {idx : List (List Nat × CommandPos)} {b : Nat}
    {M M' : List Nat → Option (List Nat)} (h : ∀ k, M k = M' k)
    (hm : idxMatches f idx b M) : idxMatches f idx b M' := by
  intro k
  have := hm k
  rw [h k] at this
  exact this

theorem idxMatches_mono {f : List Nat} {idx : List (List Nat × CommandPos)} {b b' : Nat}
    {M : List Nat → Option (List Nat)} (h : b ≤ b')
    (hm : idxMatches f idx b M) : idxMatches f idx b' M := by
  intro k
  have hk := hm k
  match hMk : M k with
  | Option.none => rw [hMk] at hk; exact hk
  | some v =>
    rw [hMk] at hk
    obtain ⟨p, h1, h2, h3⟩ := hk
    exact ⟨p, h1, le_trans h2 h, h3⟩

theorem openLines_spec (cmds : List Command) :
    ∀ (pre f : List Nat) (idx0 : List (List Nat × CommandPos)) (num0 : Nat)
      (M0 : List Nat → Option (List Nat)),
      f = pre ++ logOf cmds →
      (∀ c ∈ cmds, isGet c = false) →
      (idx0.map Prod.fst).Nodup →
      idxMatches f idx0 pre.length M0 →
      ∃ idx1 num1,
        openLines (cmds.map encode) idx0 num0 pre.length = .ok (idx1, num1, f.length) ∧
        (idx1.map Prod.fst).Nodup ∧
        idxMatches f idx1 f.length (applyCmds M0 cmds) := by
  induction cmds with
  | nil =>
    intro pre f idx0 num0 M0 hf hng hnd hmatch
    have hfp : f = pre := by simpa [logOf] using hf
    subst hfp
    exact ⟨idx0, num0, by simp [openLines, List.map_nil], hnd,
      by simpa [applyCmds_nil] using hmatch⟩
  | cons c cmds ih =>
    intro pre f idx0 num0 M0 hf hng hnd hmatch
    have hngc : isGet c = false := hng c (List.mem_cons_self _ _)
    have hng' : ∀ c' ∈ cmds, isGet c' = false := fun c' hc' => hng c' (List.mem_cons_of_mem _ hc')
    have hf' : f = (pre ++ encode c ++ [10]) ++ logOf cmds := by
      rw [hf, logOf_cons]
      simp [List.append_assoc]
    have hlen' : (pre ++ encode c ++ [10]).length = pre.length + (encode c).length + 1 := by
      simp
      omega
    cases c with
    | Get k => simp [isGet] at hngc
    | Set k v =>
      have hstep : openLines (encode (Command.Set k v) :: cmds.map encode) idx0 num0 pre.length
          = openLines (cmds.map encode)
              (insertIdx idx0 k ⟨pre.length, (encode (Command.Set k v)).length⟩)
              (if (lookupIdx idx0 k).isSome then num0 + 1 else num0)
              (pre.length + (encode (Command.Set k v)).length + 1) := by
        simp only [openLines, decode_encode]
      have hidx' : ((insertIdx idx0 k
          ⟨pre.length, (encode (Command.Set k v)).length⟩).map Prod.fst).Nodup :=
        nodup_insert _ _ _ hnd
      have hmatch' : idxMatches f
          (insertIdx idx0 k ⟨pre.length, (encode (Command.Set k v)).length⟩)
          (pre ++ encode (Command.Set k v) ++ [10]).length
          (applyCmd M0 (Command.Set k v)) := by
        intro k'
        by_cases hk : k' = k
        · subst hk
          simp only [applyCmd, if_pos rfl]
          refine ⟨⟨pre.length, (encode (Command.Set k' v)).length⟩,
            lookup_insert_self _ _ _, by simp, ?_⟩
          have hr : readRange f ⟨pre.length, (encode (Command.Set k' v)).length⟩
              = encode (Command.Set k' v) := by
            rw [hf, logOf_cons, show pre ++ (encode (Command.Set k' v) ++ 10 :: logOf cmds)
              = pre ++ encode (Command.Set k' v) ++ (10 :: logOf cmds) from by
                simp [List.append_assoc]]
            exact readRange_at pre _ _
          rw [hr]
          exact decode_encode _
        · simp only [applyCmd, if_neg hk]
          have hm := hmatch k'
          rw [lookup_insert_other _ _ hk]
          match hMk : M0 k' with
          | Option.none => rw [hMk] at hm; exact hm
          | some v' =>
            rw [hMk] at hm
            obtain ⟨p, h1, h2, h3⟩ := hm
            exact ⟨p, h1, by simp; omega, h3⟩
      obtain ⟨idx1, num1, hrun, hnd1, hm1⟩ :=
        ih (pre ++ encode (Command.Set k v) ++ [10]) f _ _ (applyCmd M0 (Command.Set k v))
          hf' hng' hidx' hmatch'
      refine ⟨idx1, num1, ?_, hnd1, by simpa [applyCmds_cons] using hm1⟩
      rw [List.map_cons, hstep, ← hlen']
      exact hrun
    | Remove k =>
      have hstep : openLines (encode (Command.Remove k) :: cmds.map encode) idx0 num0 pre.length
          = openLines (cmds.map encode) (eraseIdx idx0 k) num0
              (pre.length + (encode (Command.Remove k)).length + 1) := by
        simp only [openLines, decode_encode]
      have hidx' : ((eraseIdx idx0 k).map Prod.fst).Nodup := nodup_erase _ _ hnd
      have hmatch' : idxMatches f (eraseIdx idx0 k)
          (pre ++ encode (Command.Remove k) ++ [10]).length
          (applyCmd M0 (Command.Remove k)) := by
        intro k'
        by_cases hk : k' = k
        · subst hk
          simp only [applyCmd, if_pos rfl]
          exact lookup_erase_self _ _ hnd
        · simp only [applyCmd, if_neg hk]
          have hm := hmatch k'
          rw [lookup_erase_other _ hk]
          match hMk : M0 k' with
          | Option.none => rw [hMk] at hm; exact hm
          | some v' =>
            rw [hMk] at hm
            obtain ⟨p, h1, h2, h3⟩ := hm
            exact ⟨p, h1, by simp; omega, h3⟩
      obtain ⟨idx1, num1, hrun, hnd1, hm1⟩ :=
        ih (pre ++ encode (Command.Remove k) ++ [10]) f _ _ (applyCmd M0 (Command.Remove k))
          hf' hng' hidx' hmatch'
      refine ⟨idx1, num1, ?_, hnd1, by simpa [applyCmds_cons] using hm1⟩
      rw [List.map_cons, hstep, ← hlen']
      exact hrun

theorem openStore_logOf (cmds : List Command) (hng : ∀ c ∈ cmds, isGet c = false) :
    ∃ st, openStore (logOf cmds) = .ok st ∧ st.file = logOf cmds ∧
      st.numBytesWritten = (logOf cmds).length ∧
      (st.index.map Prod.fst).Nodup ∧
      idxMatches (logOf cmds) st.index (logOf cmds).length (liveAfter cmds) := by
  have hm0 : idxMatches (logOf cmds) [] 0 (fun _ => Option.none) := by
    intro k; exact rfl
  obtain ⟨idx1, num1, hrun, hnd1, hm1⟩ :=
    openLines_spec cmds [] (logOf cmds) [] 0 (fun _ => Option.none) (by simp) hng
      (by simp) hm0
  refine ⟨{ file := logOf cmds, index := idx1, numUnnecessaryEntries := num1,
            numBytesWritten := (logOf cmds).length }, ?_, rfl, rfl, hnd1, hm1⟩
  unfold openStore
  rw [splitLines_logOf]
  rw [show (0 : Nat) = ([] : List Nat).length from rfl] at hrun ⊢
  rw [hrun]
  rfl

/-! ### Engine invariant lemmas -/

theorem lookup_of_mem {l : List (List Nat × CommandPos)} (hnd : (l.map Prod.fst).Nodup)
    {k : List Nat} {p : CommandPos} (hmem : (k, p) ∈ l) : lookupIdx l k = some p := by
  induction l with
  | nil => simp at hmem
  | cons q r ih =>
    obtain ⟨qk, qv⟩ := q
    have hnd2 : (qk :: r.map Prod.fst).Nodup := by simpa using hnd
    rcases List.mem_cons.mp hmem with h | h
    · rw [Prod.mk.injEq] at h
      obtain ⟨h1, h2⟩ := h
      rw [lookupIdx_cons, if_pos h1.symm, h2]
    · have hne : qk ≠ k := by
        intro hh
        subst hh
        exact (List.nodup_cons.mp hnd2).1 (List.mem_map.mpr ⟨(qk, p), h, rfl⟩)
      rw [lookupIdx_cons, if_neg hne]
      exact ih (List.nodup_cons.mp hnd2).2 h

theorem openStore_empty : openStore [] = .ok emptyStore := rfl

theorem inv_empty : Inv emptyStore (fun _ => Option.none) := by
  refine ⟨⟨[], by simp, rfl, fun k => rfl⟩, rfl, by simp [emptyStore], fun k => rfl⟩

theorem get_of_inv {s : State} {M : List Nat → Option (List Nat)} (h : Inv s M)
    (k : List Nat) : get s k = .ok (M k) := by
  obtain ⟨_, _, _, hmatch⟩ := h
  have hk := hmatch k
  match hMk : M k with
  | Option.none =>
    rw [hMk] at hk
    simp only [get, hk]
  | some v =>
    rw [hMk] at hk
    obtain ⟨p, h1, h2, h3⟩ := hk
    simp only [get, h1, h3]

theorem logOf_append (xs ys : List Command) : logOf (xs ++ ys) = logOf xs ++ logOf ys := by
  simp [logOf]

theorem applyCmds_append (M : List Nat → Option (List Nat)) (xs ys : List Command) :
    applyCmds M (xs ++ ys) = applyCmds (applyCmds M xs) ys := by
  simp [applyCmds, List.foldl_append]

theorem setAppend_eq (s : State) (k v : List Nat) : setAppend s k v =
    { file := s.file ++ encode (Command.Set k v) ++ [10]
      index := insertIdx s.index k
        ⟨s.numBytesWritten, (encode (Command.Set k v)).length + 1⟩
      numUnnecessaryEntries :=
        if (lookupIdx s.index k).isSome then s.numUnnecessaryEntries + 1
        else s.numUnnecessaryEntries
      numBytesWritten := s.numBytesWritten + (encode (Command.Set k v)).length + 1 } := by
  show ({ file := s.file ++ encode (Command.Set k v) ++ [10]
          index := insertIdx s.index k
            ⟨s.numBytesWritten,
             s.numBytesWritten + (encode (Command.Set k v)).length + 1 - s.numBytesWritten⟩
          numUnnecessaryEntries :=
            if (lookupIdx s.index k).isSome then s.numUnnecessaryEntries + 1
            else s.numUnnecessaryEntries
          numBytesWritten := s.numBytesWritten + (encode (Command.Set k v)).length + 1 }
        : State) = _
  rw [show s.numBytesWritten + (encode (Command.Set k v)).length + 1 - s.numBytesWritten
      = (encode (Command.Set k v)).length + 1 from by omega]

theorem setAppend_inv {s : State} {M : List Nat → Option (List Nat)} (h : Inv s M)
    (k v : List Nat) :
    Inv (setAppend s k v) (fun k' => if k' = k then some v else M k') := by
  obtain ⟨⟨cmds, hng, hfile, hlive⟩, hcount, hnd, hmatch⟩ := h
  rw [setAppend_eq]
  refine ⟨⟨cmds ++ [Command.Set k v], ?_, ?_, ?_⟩, ?_, ?_, ?_⟩
  · intro c hc
    rcases List.mem_append.mp hc with h | h
    · exact hng c h
    · simp at h
      subst h
      rfl
  · show s.file ++ encode (Command.Set k v) ++ [10] = _
    rw [logOf_append, hfile]
    simp [logOf, List.append_assoc]
  · intro k'
    rw [show liveAfter (cmds ++ [Command.Set k v])
        = applyCmds (liveAfter cmds) [Command.Set k v] from applyCmds_append _ _ _]
    simp only [applyCmds, List.foldl_cons, List.foldl_nil, applyCmd]
    by_cases hk : k' = k
    · simp [hk]
    · simp [hk, hlive k']
  · show s.numBytesWritten + (encode (Command.Set k v)).length + 1
      = (s.file ++ encode (Command.Set k v) ++ [10]).length
    simp [hcount]
    omega
  · exact nodup_insert _ _ _ hnd
  · intro k'
    by_cases hk : k' = k
    · subst hk
      simp only [if_pos rfl]
      refine ⟨⟨s.numBytesWritten, (encode (Command.Set k' v)).length + 1⟩,
        lookup_insert_self _ _ _, ?_, ?_⟩
      · show s.numBytesWritten + ((encode (Command.Set k' v)).length + 1)
          ≤ (s.file ++ encode (Command.Set k' v) ++ [10]).length
        simp [hcount]
      · show decode (readRange (s.file ++ encode (Command.Set k' v) ++ [10])
          ⟨s.numBytesWritten, (encode (Command.Set k' v)).length + 1⟩)
          = some (Command.Set k' v)
        have hfull : s.file ++ encode (Command.Set k' v) ++ [10]
            = s.file ++ (encode (Command.Set k' v) ++ [10]) ++ [] := by
          simp [List.append_assoc]
        have hlen2 : (encode (Command.Set k' v)).length + 1
            = (encode (Command.Set k' v) ++ [10]).length := by simp
        rw [hfull, hcount, hlen2, readRange_at]
        exact decode_encode_ws _ [10] (by simp [isWs])
    · simp only [if_neg hk]
      have hm := hmatch k'
      rw [show lookupIdx (insertIdx s.index k
          ⟨s.numBytesWritten, (encode (Command.Set k v)).length + 1⟩) k'
          = lookupIdx s.index k' from lookup_insert_other _ _ hk]
      match hMk : M k' with
      | Option.none => rw [hMk] at hm; exact hm
      | some v' =>
        rw [hMk] at hm
        obtain ⟨p, h1, h2, h3⟩ := hm
        refine ⟨p, h1, ?_, ?_⟩
        · show p.pos + p.len ≤ (s.file ++ encode (Command.Set k v) ++ [10]).length
          simp
          omega
        · show decode (readRange (s.file ++ encode (Command.Set k v) ++ [10]) p) = _
          rw [List.append_assoc, readRange_append h2]
          exact h3

theorem compactCore_spec (f : List Nat) :
    ∀ (L : List (List Nat × CommandPos)), (L.map Prod.fst).Nodup →
    (∀ q ∈ L, ∃ v, decode (readRange f q.2) = some (.Set q.1 v)) →
    ∃ cmds2 : List Command, compactCore f L = .ok (logOf cmds2) ∧
      (∀ c ∈ cmds2, isGet c = false) ∧
      ∀ (M0 : List Nat → Option (List Nat)) (k : List Nat),
        applyCmds M0 cmds2 k =
          (match lookupIdx L k with
           | Option.none => M0 k
           | some p =>
             match decode (readRange f p) with
             | some (.Set _ v) => some v
             | _ => Option.none) := by
  intro L
  induction L with
  | nil =>
    intro _ _
    exact ⟨[], rfl, by simp, fun M0 k => rfl⟩
  | cons q r ih =>
    intro hnd hv
    obtain ⟨qk, qp⟩ := q
    have hnd2 : (qk :: r.map Prod.fst).Nodup := by simpa using hnd
    have hni : qk ∉ r.map Prod.fst := (List.nodup_cons.mp hnd2).1
    obtain ⟨vq, hvq⟩ := hv (qk, qp) (List.mem_cons_self _ _)
    obtain ⟨cmds2, hrun, hng2, hmap⟩ := ih (List.nodup_cons.mp hnd2).2
      (fun q' hq' => hv q' (List.mem_cons_of_mem _ hq'))
    refine ⟨Command.Set qk vq :: cmds2, ?_, ?_, ?_⟩
    · show compactCore f ((qk, qp) :: r) = _
      simp only [compactCore, hvq, hrun]
      rw [logOf_cons]
      rfl
    · intro c hc
      rcases List.mem_cons.mp hc with h | h
      · subst h; rfl
      · exact hng2 c h
    · intro M0 k
      rw [applyCmds_cons, hmap]
      rw [lookupIdx_cons]
      by_cases hk : qk = k
      · subst hk
        rw [if_pos rfl]
        rw [lookup_eq_none_of_not_mem r qk hni]
        simp [applyCmd, hvq]
      · rw [if_neg hk]
        match hl : lookupIdx r k with
        | Option.none => simp [applyCmd, Ne.symm hk]
        | some p => rfl

theorem compact_inv {s : State} {M : List Nat → Option (List Nat)} (h : Inv s M) :
    ∃ st, compactWith s [] = .ok st ∧ Inv st M := by
  obtain ⟨⟨cmds, hng, hfile, hlive⟩, hcount, hnd, hmatch⟩ := h
  have hv : ∀ q ∈ s.index, ∃ v, decode (readRange s.file q.2) = some (.Set q.1 v) := by
    intro q hq
    obtain ⟨qk, qp⟩ := q
    have hlk : lookupIdx s.index qk = some qp := lookup_of_mem hnd hq
    have hm := hmatch qk
    match hMk : M qk with
    | Option.none =>
      rw [hMk] at hm
      rw [hm] at hlk
      exact absurd hlk (by simp)
    | some v =>
      rw [hMk] at hm
      obtain ⟨p, h1, _, h3⟩ := hm
      rw [h1] at hlk
      rw [Option.some_inj] at hlk
      subst hlk
      exact ⟨v, h3⟩
  obtain ⟨cmds2, hrun, hng2, hmap⟩ := compactCore_spec s.file s.index hnd hv
  have hlive2 : ∀ k, liveAfter cmds2 k = M k := by
    intro k
    rw [show liveAfter cmds2 k = applyCmds (fun _ => Option.none) cmds2 k from rfl, hmap]
    have hm := hmatch k
    match hMk : M k with
    | Option.none =>
      rw [hMk] at hm
      simp [hm]
    | some v =>
      rw [hMk] at hm
      obtain ⟨p, h1, _, h3⟩ := hm
      simp [h1, h3]
  obtain ⟨st, hopen, hfile', hcount', hnd', hmatch'⟩ := openStore_logOf cmds2 hng2
  refine ⟨st, ?_, ⟨cmds2, hng2, hfile', hlive2⟩, by rw [hcount', hfile'], hnd', ?_⟩
  · unfold compactWith compactFileWith
    rw [hrun]
    show openStore (logOf cmds2 ++ List.drop (logOf cmds2).length []) = _
    rw [show logOf cmds2 ++ List.drop (logOf cmds2).length [] = logOf cmds2 from by simp]
    exact hopen
  · rw [hfile']
    exact idxMatches_congr hlive2 hmatch'

theorem set_inv {s : State} {M : List Nat → Option (List Nat)} (h : Inv s M)
    (k v : List Nat) :
    (Kvs.set s k v .none).2 = Option.none ∧
    Inv (Kvs.set s k v .none).1 (fun k' => if k' = k then some v else M k') := by
  have h1 := setAppend_inv h k v
  by_cases hsc : shouldCompact (setAppend s k v).numUnnecessaryEntries
      (setAppend s k v).index.length = true
  · obtain ⟨st, hcw, hinv⟩ := compact_inv h1
    have hset : Kvs.set s k v .none = (st, Option.none) := by
      simp only [Kvs.set, hsc, if_true, ite_true, hcw]
    rw [hset]
    exact ⟨rfl, hinv⟩
  · rw [Bool.not_eq_true] at hsc
    have hset : Kvs.set s k v .none = (setAppend s k v, Option.none) := by
      simp only [Kvs.set, hsc, Bool.false_eq_true, if_false, ite_false]
    rw [hset]
    exact ⟨rfl, h1⟩

theorem remove_absent {s : State} {M : List Nat → Option (List Nat)} (h : Inv s M)
    {k : List Nat} (hk : M k = Option.none) : remove s k = (s, some .keyNotFound) := by
  have hg := get_of_inv h k
  rw [hk] at hg
  simp only [remove, hg]

theorem remove_present {s : State} {M : List Nat → Option (List Nat)} (h : Inv s M)
    {k v : List Nat} (hk : M k = some v) :
    remove s k =
      ({ file := s.file ++ encode (.Remove k) ++ [10]
         index := eraseIdx s.index k
         numUnnecessaryEntries := s.numUnnecessaryEntries
         numBytesWritten := s.numBytesWritten + (encode (.Remove k)).length + 1 },
       Option.none) ∧
    Inv (remove s k).1 (fun k' => if k' = k then Option.none else M k') := by
  have hg := get_of_inv h k
  rw [hk] at hg
  have hrm : remove s k =
      ({ file := s.file ++ encode (.Remove k) ++ [10]
         index := eraseIdx s.index k
         numUnnecessaryEntries := s.numUnnecessaryEntries
         numBytesWritten := s.numBytesWritten + (encode (.Remove k)).length + 1 },
       Option.none) := by
    simp only [remove, hg]
  refine ⟨hrm, ?_⟩
  rw [hrm]
  obtain ⟨⟨cmds, hng, hfile, hlive⟩, hcount, hnd, hmatch⟩ := h
  refine ⟨⟨cmds ++ [Command.Remove k], ?_, ?_, ?_⟩, ?_, ?_, ?_⟩
  · intro c hc
    rcases List.mem_append.mp hc with h | h
    · exact hng c h
    · simp at h
      subst h
      rfl
  · show s.file ++ encode (Command.Remove k) ++ [10] = _
    rw [logOf_append, hfile]
    simp [logOf, List.append_assoc]
  · intro k'
    rw [show liveAfter (cmds ++ [Command.Remove k])
        = applyCmds (liveAfter cmds) [Command.Remove k] from applyCmds_append _ _ _]
    simp only [applyCmds, List.foldl_cons, List.foldl_nil, applyCmd]
    by_cases hkk : k' = k
    · simp [hkk]
    · simp [hkk, hlive k']
  · show s.numBytesWritten + (encode (Command.Remove k)).length + 1
      = (s.file ++ encode (Command.Remove k) ++ [10]).length
    simp [hcount]
    omega
  · exact nodup_erase _ _ hnd
  · intro k'
    by_cases hkk : k' = k
    · subst hkk
      simp only [if_pos rfl]
      exact lookup_erase_self _ _ hnd
    · simp only [if_neg hkk]
      have hm := hmatch k'
      rw [show lookupIdx (eraseIdx s.index k) k' = lookupIdx s.index k'
          from lookup_erase_other _ hkk]
      match hMk : M k' with
      | Option.none => rw [hMk] at hm; exact hm
      | some v' =>
        rw [hMk] at hm
        obtain ⟨p, h1, h2, h3⟩ := hm
        refine ⟨p, h1, ?_, ?_⟩
        · show p.pos + p.len ≤ (s.file ++ encode (Command.Remove k) ++ [10]).length
          simp
          omega
        · show decode (readRange (s.file ++ encode (Command.Remove k) ++ [10]) p) = _
          rw [List.append_assoc, readRange_append h2]
          exact h3

theorem openStore_inv {s : State} {M : List Nat → Option (List Nat)} (h : Inv s M) :
    ∃ st, openStore s.file = .ok st ∧ Inv st M := by
  obtain ⟨⟨cmds, hng, hfile, hlive⟩, _, _, _⟩ := h
  obtain ⟨st, hopen, hfile', hcount', hnd', hmatch'⟩ := openStore_logOf cmds hng
  refine ⟨st, by rw [hfile]; exact hopen,
    ⟨cmds, hng, hfile', hlive⟩, by rw [hcount', hfile'], hnd', ?_⟩
  rw [hfile']
  exact idxMatches_congr hlive hmatch'

theorem reachable_inv {s : State} (h : Reachable s) : ∃ M, Inv s M := by
  induction h with
  | base => exact ⟨fun _ => Option.none, inv_empty⟩
  | @set s k v _ _ ih =>
    obtain ⟨M, hM⟩ := ih
    exact ⟨fun k' => if k' = k then some v else M k', (set_inv hM k v).2⟩
  | @remove s k _ hstep ih =>
    obtain ⟨M, hM⟩ := ih
    match hMk : M k with
    | Option.none =>
      rw [remove_absent hM hMk] at hstep
      simp at hstep
    | some v =>
      exact ⟨fun k' => if k' = k then Option.none else M k', (remove_present hM hMk).2⟩
  | @reopen s s' _ hopen ih =>
    obtain ⟨M, hM⟩ := ih
    obtain ⟨st, hopen', hinv⟩ := openStore_inv hM
    rw [hopen'] at hopen
    rw [Except.ok.injEq] at hopen
    exact ⟨M, hopen ▸ hinv⟩

/-! ### Trace execution lemmas -/

theorem specLastWritten_foldl (ops : List MutOp) (k : List Nat) :
    specLastWritten ops k = (ops.foldl applyMutOp (fun _ => Option.none)) k := by
  unfold specLastWritten
  suffices h : ∀ M : List Nat → Option (List Nat),
      ops.foldl
        (fun m op =>
          match op with
          | .set k' v => if k' = k then some v else m
          | .remove k' => if k' = k then Option.none else m)
        (M k)
      = (ops.foldl applyMutOp M) k by
    exact h (fun _ => Option.none)
  induction ops with
  | nil => intro M; rfl
  | cons op ops ih =>
    intro M
    rw [List.foldl_cons, List.foldl_cons]
    have hstep : (match op with
        | MutOp.set k' v => if k' = k then some v else M k
        | MutOp.remove k' => if k' = k then Option.none else M k)
        = (applyMutOp M op) k := by
      cases op with
      | set k' v =>
        simp only [applyMutOp]
        by_cases hk : k = k'
        · subst hk; simp
        · rw [if_neg (fun hh : k' = k => hk hh.symm), if_neg hk]
      | remove k' =>
        simp only [applyMutOp]
        by_cases hk : k = k'
        · subst hk; simp
        · rw [if_neg (fun hh : k' = k => hk hh.symm), if_neg hk]
    rw [hstep]
    exact ih (applyMutOp M op)

theorem execOps_inv (ops : List MutOp) :
    ∀ (s : State) (M : List Nat → Option (List Nat)), Inv s M →
    ∀ s', execOps s ops = some s' → Inv s' (ops.foldl applyMutOp M) := by
  induction ops with
  | nil =>
    intro s M h s' hex
    simp only [execOps, Option.some_inj] at hex
    subst hex
    exact h
  | cons op ops ih =>
    intro s M h s' hex
    cases op with
    | set k v =>
      obtain ⟨e1, e2⟩ := set_inv h k v
      have hsplit : Kvs.set s k v .none = ((Kvs.set s k v .none).1, Option.none) := by
        rw [← e1]
      simp only [execOps] at hex
      rw [hsplit] at hex
      rw [List.foldl_cons]
      exact ih _ _ e2 s' hex
    | remove k =>
      simp only [execOps] at hex
      match hMk : M k with
      | Option.none =>
        rw [remove_absent h hMk] at hex
        simp at hex
      | some v =>
        obtain ⟨hrm, hinv⟩ := remove_present h hMk
        have hsplit : Kvs.remove s k = ((Kvs.remove s k).1, Option.none) := by
          rw [hrm]
        rw [hsplit] at hex
        rw [List.foldl_cons]
        exact ih _ _ hinv s' hex

theorem execOps_run {ops : List MutOp} {s : State}
    (h : execOps emptyStore ops = some s) :
    Inv s (ops.foldl applyMutOp (fun _ => Option.none)) :=
  execOps_inv ops emptyStore (fun _ => Option.none) inv_empty s h

/-! ### Single-precision rounding lemmas -/

theorem log2Aux_spec : ∀ (fuel n : Nat), 1 ≤ n → n ≤ fuel →
    2 ^ log2Aux fuel n ≤ n ∧ n < 2 ^ (log2Aux fuel n + 1) := by
  intro fuel
  induction fuel with
  | zero => intro n h1 h2; omega
  | succ fuel ih =>
    intro n h1 h2
    by_cases h : 2 ≤ n
    · have hrec := ih (n / 2) (by omega) (by omega)
      simp only [log2Aux, h, if_pos]
      constructor
      · have := hrec.1
        calc 2 ^ (log2Aux fuel (n / 2) + 1) = 2 * 2 ^ log2Aux fuel (n / 2) := by ring
          _ ≤ 2 * (n / 2) := by omega
          _ ≤ n := by omega
      · have := hrec.2
        calc n ≤ 2 * (n / 2) + 1 := by omega
          _ < 2 * 2 ^ (log2Aux fuel (n / 2) + 1) := by omega
          _ = 2 ^ (log2Aux fuel (n / 2) + 1 + 1) := by ring
    · have hn1 : n = 1 := by omega
      subst hn1
      simp [log2Aux]

theorem nlog2_spec {n : Nat} (h : 1 ≤ n) :
    2 ^ nlog2 n ≤ n ∧ n < 2 ^ (nlog2 n + 1) :=
  log2Aux_spec n n h (le_refl n)

theorem rndNE_le {n d : Nat} (hd : 0 < d) :
    ((rndNE n d : Nat) : ℚ) ≤ (n : ℚ) / d + 1 / 2 := by
  have hrlt : n % d < d := Nat.mod_lt n hd
  have hdq : (0 : ℚ) < (d : ℚ) := by exact_mod_cast hd
  have hnd : (n : ℚ) / d = ((n / d : Nat) : ℚ) + ((n % d : Nat) : ℚ) / d := by
    have hqr : (n : ℚ) = (d : ℚ) * ((n / d : Nat) : ℚ) + ((n % d : Nat) : ℚ) := by
      exact_mod_cast congrArg (Nat.cast : Nat → ℚ) (Nat.div_add_mod n d).symm
    rw [hqr]
    field_simp
    ring
  rw [hnd]
  unfold rndNE
  by_cases hc1 : d ≤ 2 * (n % d)
  · by_cases hc2 : 2 * (n % d) = d
    · have hhalf : ((n % d : Nat) : ℚ) / d = 1 / 2 := by
        rw [div_eq_div_iff hdq.ne' (by norm_num : (2 : ℚ) ≠ 0)]
        have hnat : (n % d) * 2 = 1 * d := by omega
        exact_mod_cast hnat
      rw [if_pos hc1, if_pos hc2, hhalf]
      push_cast
      have h01 : (((n / d) % 2 : Nat) : ℚ) ≤ 1 := by
        exact_mod_cast (show (n / d) % 2 ≤ 1 from by omega)
      linarith
    · have hge : (1 : ℚ) / 2 < ((n % d : Nat) : ℚ) / d := by
        rw [div_lt_div_iff (by norm_num : (0 : ℚ) < 2) hdq]
        have hnat : 1 * d < (n % d) * 2 := by omega
        exact_mod_cast hnat
      rw [if_pos hc1, if_neg hc2]
      push_cast
      linarith
  · have hlt : ((n % d : Nat) : ℚ) / d < 1 / 2 := by
      rw [div_lt_div_iff hdq (by norm_num : (0 : ℚ) < 2)]
      have hnat : (n % d) * 2 < 1 * d := by omega
      exact_mod_cast hnat
    have hr0 : (0 : ℚ) ≤ ((n % d : Nat) : ℚ) / d := by positivity
    rw [if_neg hc1]
    push_cast
    linarith

theorem rndNE_ge {n d : Nat} (hd : 0 < d) :
    (n : ℚ) / d - 1 / 2 ≤ ((rndNE n d : Nat) : ℚ) := by
  have hrlt : n % d < d := Nat.mod_lt n hd
  have hdq : (0 : ℚ) < (d : ℚ) := by exact_mod_cast hd
  have hnd : (n : ℚ) / d = ((n / d : Nat) : ℚ) + ((n % d : Nat) : ℚ) / d := by
    have hqr : (n : ℚ) = (d : ℚ) * ((n / d : Nat) : ℚ) + ((n % d : Nat) : ℚ) := by
      exact_mod_cast congrArg (Nat.cast : Nat → ℚ) (Nat.div_add_mod n d).symm
    rw [hqr]
    field_simp
    ring
  have hr1 : ((n % d : Nat) : ℚ) / d < 1 := by
    rw [div_lt_one hdq]
    exact_mod_cast hrlt
  rw [hnd]
  unfold rndNE
  by_cases hc1 : d ≤ 2 * (n % d)
  · by_cases hc2 : 2 * (n % d) = d
    · rw [if_pos hc1, if_pos hc2]
      have hhalf : ((n % d : Nat) : ℚ) / d = 1 / 2 := by
        rw [div_eq_div_iff hdq.ne' (by norm_num : (2 : ℚ) ≠ 0)]
        have hnat : (n % d) * 2 = 1 * d := by omega
        exact_mod_cast hnat
      rw [hhalf]
      push_cast
      have h0 : (0 : ℚ) ≤ (((n / d) % 2 : Nat) : ℚ) := by positivity
      linarith
    · rw [if_pos hc1, if_neg hc2]
      push_cast
      linarith
  · have hge : (0 : ℚ) ≤ ((n % d : Nat) : ℚ) / d := by positivity
    rw [if_neg hc1]
    push_cast
    have hlt : ((n % d : Nat) : ℚ) / d < 1 / 2 := by
      rw [div_lt_div_iff hdq (by norm_num : (0 : ℚ) < 2)]
      have hnat : (n % d) * 2 < 1 * d := by omega
      exact_mod_cast hnat
    linarith

theorem rndNE_exact {n d : Nat} (hd : 0 < d) (hdvd : d ∣ n) : rndNE n d = n / d := by
  obtain ⟨c, hc⟩ := hdvd
  subst hc
  unfold rndNE
  rw [Nat.mul_mod_right]
  simp [Nat.mul_div_cancel_left _ hd]
  omega

theorem scaledLe_iff {b : Nat} (d : ℤ) {a : Nat} (hb : 0 < b) :
    scaledLe b d a = true ↔ (2 : ℚ) ^ d ≤ (a : ℚ) / b := by
  have hbq : (0 : ℚ) < (b : ℚ) := by exact_mod_cast hb
  unfold scaledLe
  by_cases hd : 0 ≤ d
  · rw [if_pos hd]
    simp only [decide_eq_true_eq]
    have h2d : (2 : ℚ) ^ d = ((2 ^ d.toNat : Nat) : ℚ) := by
      push_cast
      rw [← zpow_natCast (2 : ℚ) d.toNat, Int.toNat_of_nonneg hd]
    rw [le_div_iff hbq, h2d,
      show ((2 ^ d.toNat : Nat) : ℚ) * (b : ℚ) = ((2 ^ d.toNat * b : Nat) : ℚ) from by
        push_cast; ring,
      Nat.cast_le]
    exact ⟨fun h => by rwa [Nat.mul_comm] at h, fun h => by rwa [Nat.mul_comm] at h⟩
  · rw [if_neg hd]
    simp only [decide_eq_true_eq]
    push_neg at hd
    have hdneg : (0 : ℤ) ≤ -d := by omega
    have h2d : (2 : ℚ) ^ (-d) = ((2 ^ (-d).toNat : Nat) : ℚ) := by
      push_cast
      rw [← zpow_natCast (2 : ℚ) (-d).toNat, Int.toNat_of_nonneg hdneg]
    have hinv : (2 : ℚ) ^ d * (2 : ℚ) ^ (-d) = 1 := by
      rw [← zpow_add₀ (by norm_num : (2 : ℚ) ≠ 0)]
      simp
    rw [le_div_iff hbq]
    constructor
    · intro h
      have h' : (b : ℚ) ≤ (a : ℚ) * ((2 ^ (-d).toNat : Nat) : ℚ) := by
        exact_mod_cast h
      rw [← h2d] at h'
      have hle : (2 : ℚ) ^ d * (b : ℚ) ≤ (2 : ℚ) ^ d * ((a : ℚ) * (2 : ℚ) ^ (-d)) :=
        mul_le_mul_of_nonneg_left h' (by positivity)
      calc (2 : ℚ) ^ d * (b : ℚ) ≤ (2 : ℚ) ^ d * ((a : ℚ) * (2 : ℚ) ^ (-d)) := hle
        _ = (a : ℚ) * ((2 : ℚ) ^ d * (2 : ℚ) ^ (-d)) := by ring
        _ = (a : ℚ) := by rw [hinv]; ring
    · intro h
      have hle : (2 : ℚ) ^ (-d) * ((2 : ℚ) ^ d * (b : ℚ)) ≤ (2 : ℚ) ^ (-d) * (a : ℚ) :=
        mul_le_mul_of_nonneg_left h (by positivity)
      have hb' : (b : ℚ) ≤ (a : ℚ) * (2 : ℚ) ^ (-d) := by
        calc (b : ℚ) = (2 : ℚ) ^ (-d) * ((2 : ℚ) ^ d * (b : ℚ)) := by
              rw [show (2 : ℚ) ^ (-d) * ((2 : ℚ) ^ d * (b : ℚ))
                  = ((2 : ℚ) ^ d * (2 : ℚ) ^ (-d)) * (b : ℚ) from by ring, hinv]
              ring
          _ ≤ (2 : ℚ) ^ (-d) * (a : ℚ) := hle
          _ = (a : ℚ) * (2 : ℚ) ^ (-d) := by ring
      rw [h2d] at hb'
      exact_mod_cast hb'

theorem roundSig_m_eq (a b : Nat) : (roundSig a b).2 =
    (if scaledLe b ((nlog2 a : ℤ) - (nlog2 b : ℤ)) a
     then (nlog2 a : ℤ) - (nlog2 b : ℤ) else (nlog2 a : ℤ) - (nlog2 b : ℤ) - 1) := rfl

theorem two_zpow_add (i j : ℤ) : (2 : ℚ) ^ i * (2 : ℚ) ^ j = 2 ^ (i + j) :=
  (zpow_add₀ (by norm_num : (2 : ℚ) ≠ 0) i j).symm

theorem two_zpow_natCast (i : Nat) : (2 : ℚ) ^ (i : ℤ) = 2 ^ (i : ℕ) := zpow_natCast 2 i

theorem roundSig_bracket (a b : Nat) (ha : 1 ≤ a) (hb : 1 ≤ b) :
    (2 : ℚ) ^ (roundSig a b).2 ≤ (a : ℚ) / b ∧ (a : ℚ) / b < 2 ^ ((roundSig a b).2 + 1) := by
  have haq : (0 : ℚ) < (a : ℚ) := by exact_mod_cast ha
  have hbq : (0 : ℚ) < (b : ℚ) := by exact_mod_cast hb
  obtain ⟨ha1, ha2⟩ := nlog2_spec ha
  obtain ⟨hb1, hb2⟩ := nlog2_spec hb
  have ha1q : ((2 : ℚ) ^ (nlog2 a : ℕ)) ≤ (a : ℚ) := by exact_mod_cast ha1
  have ha2q : (a : ℚ) < 2 ^ (nlog2 a + 1 : ℕ) := by exact_mod_cast ha2
  have hb1q : ((2 : ℚ) ^ (nlog2 b : ℕ)) ≤ (b : ℚ) := by exact_mod_cast hb1
  have hb2q : (b : ℚ) < 2 ^ (nlog2 b + 1 : ℕ) := by exact_mod_cast hb2
  set d : ℤ := (nlog2 a : ℤ) - (nlog2 b : ℤ) with hd
  have hupper : (a : ℚ) / b < 2 ^ (d + 1) := by
    rw [div_lt_iff hbq]
    calc (a : ℚ) < 2 ^ (nlog2 a + 1 : ℕ) := ha2q
      _ = 2 ^ (d + 1) * 2 ^ (nlog2 b : ℕ) := by
          rw [← two_zpow_natCast, ← two_zpow_natCast, two_zpow_add]
          congr 1
          push_cast
          omega
      _ ≤ 2 ^ (d + 1) * b := by
          apply mul_le_mul_of_nonneg_left hb1q (by positivity)
  have hlower : (2 : ℚ) ^ (d - 1) < (a : ℚ) / b := by
    rw [lt_div_iff hbq]
    calc (2 : ℚ) ^ (d - 1) * b < 2 ^ (d - 1) * 2 ^ (nlog2 b + 1 : ℕ) := by
          apply mul_lt_mul_of_pos_left hb2q (by positivity)
      _ = 2 ^ (nlog2 a : ℕ) := by
          rw [← two_zpow_natCast, ← two_zpow_natCast, two_zpow_add]
          congr 1
          push_cast
          omega
      _ ≤ (a : ℚ) := ha1q
  rw [roundSig_m_eq, ← hd]
  by_cases hsc : scaledLe b d a = true
  · rw [if_pos hsc]
    exact ⟨(scaledLe_iff d hb).mp hsc, hupper⟩
  · rw [if_neg hsc]
    have hnle : ¬((2 : ℚ) ^ d ≤ (a : ℚ) / b) := fun h =>
      hsc ((scaledLe_iff d hb).mpr h)
    push_neg at hnle
    constructor
    · exact le_of_lt hlower
    · rw [show d - 1 + 1 = d from by omega]
      exact hnle

theorem roundSig_s_eq (a b : Nat) :
    (roundSig a b).1 =
      (if 0 ≤ 23 - (roundSig a b).2
       then rndNE (a * 2 ^ (23 - (roundSig a b).2).toNat) b
       else rndNE a (b * 2 ^ (-(23 - (roundSig a b).2)).toNat)) := rfl

theorem roundSig_spec (a b : Nat) (ha : 1 ≤ a) (hb : 1 ≤ b) :
    ∃ (n' d' : Nat), 0 < d' ∧ (roundSig a b).1 = rndNE n' d' ∧
      (n' : ℚ) / (d' : ℚ) = (a : ℚ) / b * 2 ^ (23 - (roundSig a b).2) := by
  have hbq : (0 : ℚ) < (b : ℚ) := by exact_mod_cast hb
  by_cases hts : (0 : ℤ) ≤ 23 - (roundSig a b).2
  · refine ⟨a * 2 ^ (23 - (roundSig a b).2).toNat, b, hb, ?_, ?_⟩
    · rw [roundSig_s_eq, if_pos hts]
    · push_cast
      rw [← zpow_natCast (2 : ℚ) (23 - (roundSig a b).2).toNat, Int.toNat_of_nonneg hts]
      field_simp
  · refine ⟨a, b * 2 ^ (-(23 - (roundSig a b).2)).toNat, by positivity, ?_, ?_⟩
    · rw [roundSig_s_eq, if_neg hts]
    · push_cast
      rw [← zpow_natCast (2 : ℚ) (-(23 - (roundSig a b).2)).toNat,
        Int.toNat_of_nonneg (by omega)]
      have hflip : ((2 : ℚ) ^ (-(23 - (roundSig a b).2)))⁻¹
          = (2 : ℚ) ^ (23 - (roundSig a b).2) := by
        rw [← zpow_neg]
        norm_num
      rw [div_mul_eq_div_div, div_eq_mul_inv ((a : ℚ) / b), hflip]

theorem roundSig_le (a b : Nat) (ha : 1 ≤ a) (hb : 1 ≤ b) :
    ((roundSig a b).1 : ℚ) * 2 ^ ((roundSig a b).2 - 23)
      ≤ (a : ℚ) / b + 2 ^ ((roundSig a b).2 - 24) := by
  obtain ⟨n', d', hd', hs, hval⟩ := roundSig_spec a b ha hb
  set m : ℤ := (roundSig a b).2 with hm
  have h1 : ((rndNE n' d' : Nat) : ℚ) ≤ (n' : ℚ) / d' + 1 / 2 := rndNE_le hd'
  rw [hs, hval] at *
  have hmul := mul_le_mul_of_nonneg_right h1 (show (0 : ℚ) ≤ 2 ^ (m - 23) by positivity)
  calc ((rndNE n' d' : Nat) : ℚ) * 2 ^ (m - 23)
      ≤ ((a : ℚ) / b * 2 ^ (23 - m) + 1 / 2) * 2 ^ (m - 23) := hmul
    _ = (a : ℚ) / b * (2 ^ (23 - m) * 2 ^ (m - 23)) + 2 ^ (m - 23) / 2 := by ring
    _ = (a : ℚ) / b + 2 ^ (m - 24) := by
        rw [two_zpow_add, show (23 : ℤ) - m + (m - 23) = 0 from by omega]
        rw [show ((2 : ℚ) ^ (m - 23)) / 2 = 2 ^ (m - 23) * 2 ^ (-1 : ℤ) from by
          rw [show ((2 : ℚ) ^ (-1 : ℤ)) = 1 / 2 from by norm_num]
          ring]
        rw [two_zpow_add, show m - 23 + (-1 : ℤ) = m - 24 from by omega]
        simp

theorem roundSig_ge (a b : Nat) (ha : 1 ≤ a) (hb : 1 ≤ b) :
    (a : ℚ) / b - 2 ^ ((roundSig a b).2 - 24)
      ≤ ((roundSig a b).1 : ℚ) * 2 ^ ((roundSig a b).2 - 23) := by
  obtain ⟨n', d', hd', hs, hval⟩ := roundSig_spec a b ha hb
  set m : ℤ := (roundSig a b).2 with hm
  have h1 : (n' : ℚ) / d' - 1 / 2 ≤ ((rndNE n' d' : Nat) : ℚ) := rndNE_ge hd'
  rw [hs, hval] at *
  have hmul := mul_le_mul_of_nonneg_right h1 (show (0 : ℚ) ≤ 2 ^ (m - 23) by positivity)
  calc (a : ℚ) / b - 2 ^ (m - 24)
      = ((a : ℚ) / b * 2 ^ (23 - m) - 1 / 2) * 2 ^ (m - 23) := by
        rw [show ((a : ℚ) / b * 2 ^ (23 - m) - 1 / 2) * 2 ^ (m - 23)
            = (a : ℚ) / b * (2 ^ (23 - m) * 2 ^ (m - 23)) - 2 ^ (m - 23) / 2 from by ring]
        rw [two_zpow_add, show (23 : ℤ) - m + (m - 23) = 0 from by omega]
        rw [show ((2 : ℚ) ^ (m - 23)) / 2 = 2 ^ (m - 23) * 2 ^ (-1 : ℤ) from by
          rw [show ((2 : ℚ) ^ (-1 : ℤ)) = 1 / 2 from by norm_num]
          ring]
        rw [two_zpow_add, show m - 23 + (-1 : ℤ) = m - 24 from by omega]
        simp
    _ ≤ ((rndNE n' d' : Nat) : ℚ) * 2 ^ (m - 23) := hmul

theorem roundSig_s_lower (a b : Nat) (ha : 1 ≤ a) (hb : 1 ≤ b) :
    2 ^ 23 ≤ (roundSig a b).1 := by
  obtain ⟨n', d', hd', hs, hval⟩ := roundSig_spec a b ha hb
  obtain ⟨hbr1, _⟩ := roundSig_bracket a b ha hb
  set m : ℤ := (roundSig a b).2 with hm
  have h1 : (n' : ℚ) / d' - 1 / 2 ≤ ((rndNE n' d' : Nat) : ℚ) := rndNE_ge hd'
  have hq : (2 : ℚ) ^ (23 : ℕ) ≤ (n' : ℚ) / d' := by
    rw [hval]
    calc (2 : ℚ) ^ (23 : ℕ) = 2 ^ (m : ℤ) * 2 ^ (23 - m) := by
          rw [two_zpow_add, show (m : ℤ) + (23 - m) = (23 : ℤ) from by omega]
          norm_num
      _ ≤ (a : ℚ) / b * 2 ^ (23 - m) := by
          apply mul_le_mul_of_nonneg_right hbr1 (by positivity)
  have h2 : (2 : ℚ) ^ (23 : ℕ) - 1 / 2 ≤ ((rndNE n' d' : Nat) : ℚ) := by linarith
  rw [hs]
  by_contra hcon
  push_neg at hcon
  have : ((rndNE n' d' : Nat) : ℚ) < ((2 ^ 23 : Nat) : ℚ) := by exact_mod_cast hcon
  have h23 : ((2 ^ 23 : Nat) : ℚ) = (2 : ℚ) ^ (23 : ℕ) := by push_cast; ring
  rw [h23] at this
  have : ((rndNE n' d' : Nat) : ℚ) ≤ (2 : ℚ) ^ (23 : ℕ) - 1 := by
    have hn : rndNE n' d' ≤ 2 ^ 23 - 1 := by
      by_contra hc2
      push_neg at hc2
      have : (2 ^ 23 : Nat) ≤ rndNE n' d' := by omega
      have : ((2 ^ 23 : Nat) : ℚ) ≤ ((rndNE n' d' : Nat) : ℚ) := by exact_mod_cast this
      rw [h23] at this
      linarith
    calc ((rndNE n' d' : Nat) : ℚ) ≤ (((2 ^ 23 - 1 : Nat)) : ℚ) := by exact_mod_cast hn
      _ = (2 : ℚ) ^ (23 : ℕ) - 1 := by push_cast; ring
  linarith

theorem roundSig_exact (a b : Nat) (ha : 1 ≤ a) (hb : 1 ≤ b) (j : ℤ)
    (hj : (a : ℚ) / b = 2 ^ j) :
    ((roundSig a b).1 : ℚ) * 2 ^ ((roundSig a b).2 - 23) = 2 ^ j := by
  obtain ⟨hbr1, hbr2⟩ := roundSig_bracket a b ha hb
  set m : ℤ := (roundSig a b).2 with hm
  have hmj : m = j := by
    rw [hj] at hbr1 hbr2
    have h1 : m ≤ j := (zpow_le_zpow_iff_right₀ (by norm_num : (1 : ℚ) < 2)).mp hbr1
    have h2 : j < m + 1 := (zpow_lt_zpow_iff_right₀ (by norm_num : (1 : ℚ) < 2)).mp hbr2
    omega
  obtain ⟨n', d', hd', hs, hval⟩ := roundSig_spec a b ha hb
  rw [hj, ← hm, hmj] at hval
  rw [two_zpow_add, show j + (23 - j) = (23 : ℤ) from by omega] at hval
  rw [show ((2 : ℚ) ^ (23 : ℤ)) = ((2 ^ 23 : Nat) : ℚ) from by norm_num] at hval
  have hnat : n' = 2 ^ 23 * d' := by
    have hdq : (0 : ℚ) < (d' : ℚ) := by exact_mod_cast hd'
    have : (n' : ℚ) = ((2 ^ 23 : Nat) : ℚ) * d' := by
      rw [div_eq_iff hdq.ne'] at hval
      linarith [hval]
    exact_mod_cast this
  have hsval : rndNE n' d' = 2 ^ 23 := by
    rw [hnat, rndNE_exact hd' ⟨2 ^ 23, by ring⟩]
    rw [Nat.mul_div_cancel _ hd']
  rw [hs, hsval, hmj]
  rw [show (((2 ^ 23 : Nat)) : ℚ) = (2 : ℚ) ^ (23 : ℤ) from by norm_num]
  rw [two_zpow_add, show (23 : ℤ) + (j - 23) = j from by omega]

theorem rndNE_one (x : Nat) : rndNE x 1 = x := by
  unfold rndNE
  simp [Nat.mod_one]

theorem toF32_eq {n : Nat} (h : 1 ≤ n) :
    toF32 n = ⟨(roundSig n 1).1, (roundSig n 1).2 - 23⟩ := by
  unfold toF32
  rw [if_neg (by omega : ¬n = 0)]

theorem toF32_s_pos {n : Nat} (h : 1 ≤ n) : 1 ≤ (toF32 n).s := by
  rw [toF32_eq h]
  have := roundSig_s_lower n 1 h (le_refl 1)
  show 1 ≤ (roundSig n 1).1
  calc (1 : Nat) ≤ 2 ^ 23 := by norm_num
    _ ≤ (roundSig n 1).1 := this

theorem toF32_spec {n : Nat} (h1 : 1 ≤ n) (h2 : n ≤ 2 ^ 24) :
    f32Val (toF32 n) = n := by
  rw [toF32_eq h1]
  show ((roundSig n 1).1 : ℚ) * 2 ^ ((roundSig n 1).2 - 23) = n
  have hdiv1 : ((n : ℚ) / (1 : Nat) : ℚ) = (n : ℚ) := by norm_num
  obtain ⟨hbr1, hbr2⟩ := roundSig_bracket n 1 h1 (le_refl 1)
  rw [hdiv1] at hbr1 hbr2
  set m : ℤ := (roundSig n 1).2 with hm
  have hm24 : m ≤ 24 := by
    have hle : (2 : ℚ) ^ m ≤ 2 ^ (24 : ℤ) := by
      calc (2 : ℚ) ^ m ≤ (n : ℚ) := hbr1
        _ ≤ ((2 ^ 24 : Nat) : ℚ) := by exact_mod_cast h2
        _ = 2 ^ (24 : ℤ) := by norm_num
    exact (zpow_le_zpow_iff_right₀ (by norm_num : (1 : ℚ) < 2)).mp hle
  by_cases hm23 : m ≤ 23
  · have hts : (0 : ℤ) ≤ 23 - m := by omega
    have hseq : (roundSig n 1).1 = rndNE (n * 2 ^ (23 - m).toNat) 1 := by
      rw [roundSig_s_eq, ← hm, if_pos hts]
    rw [hseq, rndNE_one]
    push_cast
    rw [← zpow_natCast (2 : ℚ) (23 - m).toNat, Int.toNat_of_nonneg hts]
    rw [mul_assoc, two_zpow_add, show (23 : ℤ) - m + (m - 23) = 0 from by omega]
    simp
  · have hm24' : m = 24 := by omega
    have hn : n = 2 ^ 24 := by
      have h224 : ((2 ^ 24 : Nat) : ℚ) ≤ (n : ℚ) := by
        calc ((2 ^ 24 : Nat) : ℚ) = 2 ^ (24 : ℤ) := by norm_num
          _ = 2 ^ m := by rw [hm24']
          _ ≤ (n : ℚ) := hbr1
      have := (Nat.cast_le (α := ℚ)).mp h224
      omega
    have hj : (n : ℚ) / (1 : Nat) = 2 ^ (24 : ℤ) := by
      rw [hdiv1, hn]
      norm_num
    have := roundSig_exact n 1 h1 (le_refl 1) 24 hj
    rw [← hm] at this
    rw [this, hn]
    norm_num

theorem gtHalfF32_iff (x : F32) : gtHalfF32 x = true ↔ (1 : ℚ) / 2 < f32Val x := by
  unfold gtHalfF32 f32Val
  by_cases hk : (0 : ℤ) ≤ x.e + 1
  · rw [if_pos hk]
    simp only [decide_eq_true_eq]
    have hcast : ((x.s * 2 ^ (x.e + 1).toNat : Nat) : ℚ) = (x.s : ℚ) * 2 ^ (x.e + 1) := by
      push_cast
      rw [← zpow_natCast (2 : ℚ) (x.e + 1).toNat, Int.toNat_of_nonneg hk]
    have hexp : (x.s : ℚ) * 2 ^ (x.e + 1) = (x.s : ℚ) * 2 ^ x.e * 2 := by
      rw [show (2 : ℚ) ^ (x.e + 1) = 2 ^ x.e * 2 from by
        rw [show (2 : ℚ) ^ x.e * 2 = 2 ^ x.e * 2 ^ (1 : ℤ) from by norm_num, two_zpow_add]]
      ring
    constructor
    · intro h
      have h' : (1 : ℚ) < (x.s : ℚ) * 2 ^ (x.e + 1) := by
        rw [← hcast]
        exact_mod_cast h
      rw [hexp] at h'
      linarith
    · intro h
      have h' : (1 : ℚ) < (x.s : ℚ) * 2 ^ (x.e + 1) := by
        rw [hexp]
        linarith
      rw [← hcast] at h'
      exact_mod_cast h'
  · rw [if_neg hk]
    simp only [decide_eq_true_eq]
    push_neg at hk
    have hcast : ((2 ^ (-(x.e + 1)).toNat : Nat) : ℚ) = (2 : ℚ) ^ (-(x.e + 1)) := by
      push_cast
      rw [← zpow_natCast (2 : ℚ) (-(x.e + 1)).toNat, Int.toNat_of_nonneg (by omega)]
    constructor
    · intro h
      have h' : (2 : ℚ) ^ (-(x.e + 1)) < (x.s : ℚ) := by
        rw [← hcast]
        exact_mod_cast h
      have hmul := mul_lt_mul_of_pos_right h' (show (0 : ℚ) < 2 ^ x.e by positivity)
      rw [two_zpow_add, show -(x.e + 1) + x.e = (-1 : ℤ) from by omega] at hmul
      have : (2 : ℚ) ^ (-1 : ℤ) = 1 / 2 := by norm_num
      rw [this] at hmul
      exact hmul
    · intro h
      have hmul := mul_lt_mul_of_pos_right h (show (0 : ℚ) < 2 ^ (-x.e) by positivity)
      rw [mul_assoc, two_zpow_add, show x.e + -x.e = (0 : ℤ) from by omega] at hmul
      simp only [zpow_zero, mul_one] at hmul
      have hhalf : (1 : ℚ) / 2 * 2 ^ (-x.e) = 2 ^ (-(x.e + 1)) := by
        rw [show (1 : ℚ) / 2 = 2 ^ (-1 : ℤ) from by norm_num, two_zpow_add]
        rw [show (-1 : ℤ) + -x.e = -(x.e + 1) from by omega]
      rw [hhalf] at hmul
      have h' : ((2 ^ (-(x.e + 1)).toNat : Nat) : ℚ) < (x.s : ℚ) := by
        rw [hcast]
        exact hmul
      exact_mod_cast h'

theorem shouldCompact_iff (num len : Nat) (hl : 1 ≤ len) (hlen : len ≤ 2 ^ 24)
    (hnum : num ≤ 2 ^ 24) : shouldCompact num len = true ↔ len < 2 * num := by
  unfold shouldCompact
  rw [if_neg (by omega : ¬len = 0)]
  by_cases hn0 : num = 0
  · subst hn0
    rw [show toF32 0 = ⟨0, 0⟩ from rfl]
    rw [show divF32 ⟨0, 0⟩ (toF32 len) = ⟨0, 0⟩ from rfl]
    rw [show gtHalfF32 ⟨0, 0⟩ = false from rfl]
    simp
  · have hn1 : 1 ≤ num := by omega
    have hlq : (0 : ℚ) < (len : ℚ) := by exact_mod_cast hl
    have hx := toF32_spec hn1 hnum
    have hy := toF32_spec hl hlen
    have hxs := toF32_s_pos hn1
    have hys := toF32_s_pos hl
    set x := toF32 num with hxdef
    set y := toF32 len with hydef
    have hys0 : (0 : ℚ) < (y.s : ℚ) := by exact_mod_cast hys
    have hdiv : divF32 x y = ⟨(roundSig x.s y.s).1, (roundSig x.s y.s).2 - 23 + x.e - y.e⟩ := by
      unfold divF32
      rw [if_neg (by omega : ¬x.s = 0)]
    set m' : ℤ := (roundSig x.s y.s).2 with hm'
    set E : ℤ := x.e - y.e with hE
    set M : ℤ := m' + E with hM
    have h2E : (0 : ℚ) < (2 : ℚ) ^ E := by positivity
    have hq : (num : ℚ) / len = ((x.s : ℚ) / y.s) * 2 ^ E := by
      rw [← hx, ← hy]
      unfold f32Val
      rw [mul_div_mul_comm, ← zpow_sub₀ (by norm_num : (2 : ℚ) ≠ 0), ← hE]
    have hr : f32Val (divF32 x y) = ((roundSig x.s y.s).1 : ℚ) * 2 ^ (m' - 23) * 2 ^ E := by
      rw [hdiv]
      show ((roundSig x.s y.s).1 : ℚ) * 2 ^ (m' - 23 + x.e - y.e) = _
      rw [show m' - 23 + x.e - y.e = (m' - 23) + E from by omega, ← two_zpow_add]
      ring
    have herr_le := roundSig_le x.s y.s hxs hys
    have herr_ge := roundSig_ge x.s y.s hxs hys
    have hbr := roundSig_bracket x.s y.s hxs hys
    have hrle : f32Val (divF32 x y) ≤ (num : ℚ) / len + 2 ^ (M - 24) := by
      rw [hr, hq]
      calc ((roundSig x.s y.s).1 : ℚ) * 2 ^ (m' - 23) * 2 ^ E
          ≤ ((x.s : ℚ) / y.s + 2 ^ (m' - 24)) * 2 ^ E :=
            mul_le_mul_of_nonneg_right herr_le (le_of_lt h2E)
        _ = (x.s : ℚ) / y.s * 2 ^ E + 2 ^ (m' - 24) * 2 ^ E := by ring
        _ = (x.s : ℚ) / y.s * 2 ^ E + 2 ^ (M - 24) := by
            rw [two_zpow_add, show m' - 24 + E = M - 24 from by omega]
    have hrge : (num : ℚ) / len - 2 ^ (M - 24) ≤ f32Val (divF32 x y) := by
      rw [hr, hq]
      calc (x.s : ℚ) / y.s * 2 ^ E - 2 ^ (M - 24)
          = ((x.s : ℚ) / y.s - 2 ^ (m' - 24)) * 2 ^ E := by
            rw [show ((x.s : ℚ) / y.s - 2 ^ (m' - 24)) * 2 ^ E
                = (x.s : ℚ) / y.s * 2 ^ E - 2 ^ (m' - 24) * 2 ^ E from by ring]
            rw [two_zpow_add, show m' - 24 + E = M - 24 from by omega]
        _ ≤ ((roundSig x.s y.s).1 : ℚ) * 2 ^ (m' - 23) * 2 ^ E :=
            mul_le_mul_of_nonneg_right herr_ge (le_of_lt h2E)
    have hrlow : (2 : ℚ) ^ M ≤ f32Val (divF32 x y) := by
      rw [hr]
      have hs_low := roundSig_s_lower x.s y.s hxs hys
      have hsq : ((2 : ℚ) ^ (23 : ℤ)) ≤ ((roundSig x.s y.s).1 : ℚ) := by
        calc (2 : ℚ) ^ (23 : ℤ) = ((2 ^ 23 : Nat) : ℚ) := by norm_num
          _ ≤ _ := by exact_mod_cast hs_low
      calc (2 : ℚ) ^ M = 2 ^ (23 + (m' - 23) + E : ℤ) := by
            rw [show (23 : ℤ) + (m' - 23) + E = M from by omega]
        _ = 2 ^ (23 : ℤ) * 2 ^ (m' - 23) * 2 ^ E := by
            rw [two_zpow_add, two_zpow_add]
        _ ≤ ((roundSig x.s y.s).1 : ℚ) * 2 ^ (m' - 23) * 2 ^ E := by
            apply mul_le_mul_of_nonneg_right _ (le_of_lt h2E)
            exact mul_le_mul_of_nonneg_right hsq (by positivity)
    have hbrqlow : (2 : ℚ) ^ M ≤ (num : ℚ) / len := by
      rw [hq, hM, ← two_zpow_add]
      exact mul_le_mul_of_nonneg_right hbr.1 (le_of_lt h2E)
    have hbrqhigh : (num : ℚ) / len < 2 ^ (M + 1) := by
      rw [hq, show M + 1 = (m' + 1) + E from by omega, ← two_zpow_add]
      exact mul_lt_mul_of_pos_right hbr.2 h2E
    rw [gtHalfF32_iff]
    constructor
    · intro hgt
      by_contra hcon
      push_neg at hcon
      rcases Nat.lt_or_ge (2 * num) len with hlt2 | hge2
      · have hql : (num : ℚ) / len ≤ 1 / 2 - (2 : ℚ) ^ (-25 : ℤ) := by
          rw [div_le_iff hlq, show ((2 : ℚ) ^ (-25 : ℤ)) = 1 / 33554432 from by norm_num]
          have hc1 : (len : ℚ) ≤ 16777216 := by
            have := (Nat.cast_le (α := ℚ)).mpr hlen
            rw [show ((2 ^ 24 : Nat) : ℚ) = 16777216 from by norm_num] at this
            exact this
          have hc2 : 2 * (num : ℚ) + 1 ≤ (len : ℚ) := by
            have := (Nat.cast_le (α := ℚ)).mpr (show 2 * num + 1 ≤ len from by omega)
            push_cast at this
            linarith
          linarith
        have hM2 : M ≤ -2 := by
          have hp25 : (0 : ℚ) < 2 ^ (-25 : ℤ) := by positivity
          have h1 : (2 : ℚ) ^ M < 2 ^ (-1 : ℤ) := by
            calc (2 : ℚ) ^ M ≤ (num : ℚ) / len := hbrqlow
              _ ≤ 1 / 2 - 2 ^ (-25 : ℤ) := hql
              _ < 1 / 2 := by linarith
              _ = 2 ^ (-1 : ℤ) := by norm_num
          have := (zpow_lt_zpow_iff_right₀ (by norm_num : (1 : ℚ) < 2)).mp h1
          omega
        have h26 : (2 : ℚ) ^ (M - 24) ≤ 2 ^ (-26 : ℤ) :=
          zpow_le_zpow_right₀ (by norm_num : (1 : ℚ) ≤ 2) (by omega)
        rw [show ((2 : ℚ) ^ (-26 : ℤ)) = 1 / 67108864 from by norm_num] at h26
        rw [show ((2 : ℚ) ^ (-25 : ℤ)) = 1 / 33554432 from by norm_num] at hql
        linarith
      · have heq : 2 * num = len := by omega
        have hq12 : (num : ℚ) / len = (2 : ℚ) ^ (-1 : ℤ) := by
          have hlen2 : (len : ℚ) = 2 * (num : ℚ) := by exact_mod_cast heq.symm
          have hnq : (0 : ℚ) < (num : ℚ) := by exact_mod_cast hn1
          rw [hlen2, show ((2 : ℚ) ^ (-1 : ℤ)) = 1 / 2 from by norm_num,
            div_eq_div_iff (show (2 : ℚ) * (num : ℚ) ≠ 0 from
              ne_of_gt (show (0 : ℚ) < 2 * (num : ℚ) from by linarith))
              (by norm_num : (2 : ℚ) ≠ 0)]
          ring
        have hQpow : (x.s : ℚ) / y.s = 2 ^ (-1 - E : ℤ) := by
          have h1 : (x.s : ℚ) / y.s * 2 ^ E = 2 ^ (-1 : ℤ) := by rw [← hq, hq12]
          have hone : (2 : ℚ) ^ E * 2 ^ (-E) = 1 := by
            rw [two_zpow_add, show E + -E = (0 : ℤ) from by omega]
            norm_num
          calc (x.s : ℚ) / y.s
              = (x.s : ℚ) / y.s * (2 ^ E * 2 ^ (-E)) := by rw [hone, mul_one]
            _ = ((x.s : ℚ) / y.s * 2 ^ E) * 2 ^ (-E) := by ring
            _ = 2 ^ (-1 : ℤ) * 2 ^ (-E) := by rw [h1]
            _ = 2 ^ (-1 - E : ℤ) := by
                rw [two_zpow_add, show (-1 : ℤ) + -E = -1 - E from by omega]
        have hexact := roundSig_exact x.s y.s hxs hys (-1 - E) hQpow
        have hrhalf : f32Val (divF32 x y) = 1 / 2 := by
          rw [← hm'] at hexact
          rw [hr, hexact, two_zpow_add, show (-1 : ℤ) - E + E = (-1 : ℤ) from by omega]
          norm_num
        rw [hrhalf] at hgt
        linarith
    · intro hlt
      have hqgt : 1 / 2 + (2 : ℚ) ^ (-25 : ℤ) < (num : ℚ) / len := by
        rw [lt_div_iff hlq, show ((2 : ℚ) ^ (-25 : ℤ)) = 1 / 33554432 from by norm_num]
        rcases Nat.lt_or_ge len (2 ^ 24) with hl24 | hl24
        · have hc1 : (len : ℚ) < 16777216 := by
            have := (Nat.cast_lt (α := ℚ)).mpr hl24
            rw [show ((2 ^ 24 : Nat) : ℚ) = 16777216 from by norm_num] at this
            exact this
          have hc2 : (len : ℚ) + 1 ≤ 2 * (num : ℚ) := by
            have := (Nat.cast_le (α := ℚ)).mpr (show len + 1 ≤ 2 * num from by omega)
            push_cast at this
            linarith
          linarith
        · have hl24' : len = 2 ^ 24 := by omega
          have hc2 : (8388609 : ℚ) ≤ (num : ℚ) := by
            have : 8388609 ≤ num := by omega
            exact_mod_cast this
          have hlenq : (len : ℚ) = 16777216 := by
            rw [hl24']
            push_cast
            norm_num
          rw [hlenq]
          linarith
      have hMge : -1 ≤ M := by
        have hp25 : (0 : ℚ) < 2 ^ (-25 : ℤ) := by positivity
        have h1 : (2 : ℚ) ^ (-1 : ℤ) < 2 ^ (M + 1) := by
          calc (2 : ℚ) ^ (-1 : ℤ) = 1 / 2 := by norm_num
            _ < (num : ℚ) / len := by linarith
            _ < 2 ^ (M + 1) := hbrqhigh
        have := (zpow_lt_zpow_iff_right₀ (by norm_num : (1 : ℚ) < 2)).mp h1
        omega
      rcases Int.lt_or_le M 0 with hM0 | hM0
      · have hMeq : M = -1 := by omega
        have h24 : (2 : ℚ) ^ (M - 24) = 2 ^ (-25 : ℤ) := by
          rw [hMeq, show (-1 : ℤ) - 24 = -25 from by omega]
        rw [h24] at hrge
        linarith
      · have h1 : (1 : ℚ) ≤ 2 ^ M := one_le_zpow₀ (by norm_num : (1 : ℚ) ≤ 2) hM0
        linarith

/-! ### The claims -/

/-- C1: for a successful `set`, the index entry's offset is the write counter
before the append; but its length is the FULL number of bytes appended,
`record.length + 1`, INCLUDING the trailing newline (the source stores
`after - before` with no `- 1`), so the byte range covers the record plus
the newline rather than excluding it. -/
theorem C1_set_index_entry (s : State) (k v : List Nat) :
    lookupIdx (setAppend s k v).index k =
      some ⟨s.numBytesWritten, (encode (Command.Set k v)).length + 1⟩ ∧
    (setAppend s k v).file = s.file ++ encode (Command.Set k v) ++ [10] ∧
    (setAppend s k v).file.length = s.file.length + ((encode (Command.Set k v)).length + 1) := by
  rw [setAppend_eq]
  refine ⟨lookup_insert_self _ _ _, rfl, by simp⟩

/-- C1 counterexample: setting key "a" to "b" on a fresh store appends 32
bytes (a 31-byte record plus the newline) and stores the index entry
`⟨0, 32⟩`, not `⟨0, 31⟩` as the claimed `- 1` would give. -/
theorem C1_entry_includes_newline :
    (Kvs.set emptyStore [97] [98] .none).2 = Option.none ∧
    (Kvs.set emptyStore [97] [98] .none).1.file.length = 32 ∧
    (encode (Command.Set [97] [98])).length = 31 ∧
    lookupIdx (Kvs.set emptyStore [97] [98] .none).1.index [97] = some ⟨0, 32⟩ := by
  decide

/-- C2: after any successful trace of `set`/`remove` calls from a fresh
store, re-opening the resulting log file succeeds and yields a store whose
`get k` returns exactly the last value written for `k` and not removed
since (the spec-side `specLastWritten`), for every key. -/
theorem C2_reopen_replays_spec (ops : List MutOp) (s : State) (k : List Nat)
    (h : execOps emptyStore ops = some s) :
    ∃ st, openStore s.file = .ok st ∧ get st k = .ok (specLastWritten ops k) := by
  have hinv := execOps_run h
  obtain ⟨st, hopen, hinv2⟩ := openStore_inv hinv
  refine ⟨st, hopen, ?_⟩
  rw [get_of_inv hinv2 k, specLastWritten_foldl]

/-- C2 witness: the one-element trace `set "a" "b"`, with the resulting
state spelled out. -/
theorem C2_reopen_replays_spec_witness :
    execOps emptyStore [MutOp.set [97] [98]] = some
      { file := encode (Command.Set [97] [98]) ++ [10]
        index := [([97], ⟨0, 32⟩)]
        numUnnecessaryEntries := 0
        numBytesWritten := 32 } ∧
    ∃ st, openStore (encode (Command.Set [97] [98]) ++ [10]) = .ok st ∧
      get st [97] = .ok (specLastWritten [MutOp.set [97] [98]] [97]) :=
  ⟨by decide,
   C2_reopen_replays_spec [MutOp.set [97] [98]]
     { file := encode (Command.Set [97] [98]) ++ [10]
       index := [([97], ⟨0, 32⟩)]
       numUnnecessaryEntries := 0
       numBytesWritten := 32 } [97] (by decide)⟩

/-- C3: compaction does NOT truncate a pre-existing `kvs_temp.log`
(`OpenOptions` sets `create(true).write(true)` but never `truncate(true)`),
so stale bytes beyond the freshly written live records survive into the
renamed `kvs.log`: with one live 32-byte record and a 40-byte stale temp
file, the new log keeps 8 stale trailing bytes, and the re-`open` that
compaction performs then fails on them, whereas with an empty temp file the
same compaction succeeds. -/
theorem C3_compact_keeps_stale_tail :
    compactFileWith (Kvs.set emptyStore [97] [98] .none).1 (List.replicate 40 120)
      = .ok (encode (Command.Set [97] [98]) ++ 10 :: List.replicate 8 120) ∧
    compactWith (Kvs.set emptyStore [97] [98] .none).1 (List.replicate 40 120)
      = .error .corrupt ∧
    compactWith (Kvs.set emptyStore [97] [98] .none).1 []
      = .ok { file := encode (Command.Set [97] [98]) ++ [10]
              index := [([97], ⟨0, 31⟩)]
              numUnnecessaryEntries := 0
              numBytesWritten := 32 } := by
  decide

/-- C4: when a key's index entry decodes to a non-`Set` command, `get`
returns `Ok(None)` -- the `if let Set` falls through to the final
`Ok(None)` -- rather than raising a corruption error as claimed. -/
theorem C4_get_nonset_ok_none (s : State) (k : List Nat) (p : CommandPos) (c : Command)
    (h1 : lookupIdx s.index k = some p)
    (h2 : decode (readRange s.file p) = some c)
    (h3 : isSet c = false) :
    get s k = .ok Option.none := by
  cases c with
  | Set k2 v2 => simp [isSet] at h3
  | Get k2 => simp [get, h1, h2]
  | Remove k2 => simp [get, h1, h2]

/-- C4 counterexample: a state whose index entry for "a" spans a `Remove`
record; `get` returns `Ok(None)`, not an error. -/
theorem C4_nonset_gives_ok_none :
    (decode (readRange (encode (Command.Remove [97]) ++ [10])
        ⟨0, (encode (Command.Remove [97])).length⟩) = some (Command.Remove [97])) ∧
    get { file := encode (Command.Remove [97]) ++ [10]
          index := [([97], ⟨0, (encode (Command.Remove [97])).length⟩)]
          numUnnecessaryEntries := 0
          numBytesWritten := (encode (Command.Remove [97])).length + 1 } [97]
      = .ok Option.none := by
  decide

/-- C4 witness: the amended theorem applied at that same state. -/
theorem C4_get_nonset_ok_none_witness :
    get { file := encode (Command.Remove [97]) ++ [10]
          index := [([97], ⟨0, (encode (Command.Remove [97])).length⟩)]
          numUnnecessaryEntries := 0
          numBytesWritten := (encode (Command.Remove [97])).length + 1 } [97]
      = .ok Option.none :=
  C4_get_nonset_ok_none _ [97] ⟨0, (encode (Command.Remove [97])).length⟩
    (Command.Remove [97]) (by decide) (by decide) (by decide)

/-- C5: with both counters at most 2^24 (where `as f32` conversion is
exact for the numerator), the compaction test triggers exactly when the
exact ratio exceeds one half, i.e. `len < 2 * num`; and when the test is
false, `set` returns the plainly appended state without rewriting the
log. Beyond 2^24 the f32 rounding makes the claimed exact-ratio reading
false (see the counterexample). -/
theorem C5_compaction_trigger (num len : Nat) (s : State) (k v : List Nat)
    (h1 : 1 ≤ len) (h2 : len ≤ 2 ^ 24) (h3 : num ≤ 2 ^ 24) :
    (shouldCompact num len = true ↔ len < 2 * num) ∧
    (shouldCompact (setAppend s k v).numUnnecessaryEntries
        (setAppend s k v).index.length = false →
      Kvs.set s k v .none = (setAppend s k v, Option.none)) := by
  refine ⟨shouldCompact_iff num len h1 h2 h3, fun hsc => ?_⟩
  simp [Kvs.set, hsc]

/-- C5 counterexample: `num = 2^24 + 1`, `len = 2^25 + 1`: the exact ratio
exceeds one half, yet both counters round (ties-to-even) to powers of two
under `as f32` and the comparison `num as f32 / len as f32 > 0.5` is
false, so compaction does not trigger. -/
theorem C5_f32_rounding_divergence :
    shouldCompact 16777217 33554433 = false ∧
    33554433 < 2 * 16777217 ∧
    (1 : ℚ) / 2 < 16777217 / 33554433 := by
  refine ⟨by decide, by decide, by norm_num⟩

/-- C5 witness: the trigger equivalence at `num = 1`, `len = 2` (false on
both sides), and the no-compaction branch on a fresh store. -/
theorem C5_compaction_trigger_witness :
    (1 ≤ 2) ∧ (2 ≤ 2 ^ 24) ∧ (1 ≤ 2 ^ 24) ∧
    ((shouldCompact 1 2 = true ↔ 2 < 2 * 1) ∧
     (shouldCompact (setAppend emptyStore [97] [98]).numUnnecessaryEntries
         (setAppend emptyStore [97] [98]).index.length = false →
       Kvs.set emptyStore [97] [98] .none = (setAppend emptyStore [97] [98], Option.none))) :=
  ⟨by decide, by decide, by decide,
   C5_compaction_trigger 1 2 emptyStore [97] [98] (by decide) (by decide) (by decide)⟩

/-- C6: in every reachable state, removing an absent key returns the
key-not-found error and leaves the state (log file included) unchanged,
while removing a present key succeeds, appends exactly a `Remove` record
plus newline, and deletes the key's index entry. -/
theorem C6_remove_semantics (s : State) (h : Reachable s) (k : List Nat) :
    (lookupIdx s.index k = Option.none → remove s k = (s, some Err.keyNotFound)) ∧
    ((lookupIdx s.index k).isSome = true →
      (remove s k).2 = Option.none ∧
      (remove s k).1.file = s.file ++ encode (Command.Remove k) ++ [10] ∧
      lookupIdx (remove s k).1.index k = Option.none) := by
  obtain ⟨M, hM⟩ := reachable_inv h
  have hmatch := hM.2.2.2 k
  have hnd := hM.2.2.1
  constructor
  · intro hnone
    cases hMk : M k with
    | none => exact remove_absent hM hMk
    | some v =>
      rw [hMk] at hmatch
      obtain ⟨p, hp, -, -⟩ := hmatch
      rw [hp] at hnone
      exact absurd hnone (by simp)
  · intro hsome
    cases hMk : M k with
    | none =>
      rw [hMk] at hmatch
      rw [hmatch] at hsome
      simp at hsome
    | some v =>
      obtain ⟨hrm, -⟩ := remove_present hM hMk
      rw [hrm]
      exact ⟨rfl, rfl, lookup_erase_self _ _ hnd⟩

/-- C6 witness: removing from the fresh empty store reports key-not-found
and changes nothing. -/
theorem C6_remove_semantics_witness :
    remove emptyStore [97] = (emptyStore, some Err.keyNotFound) :=
  (C6_remove_semantics emptyStore Reachable.base [97]).1 (by decide)

/-- C7: in every reachable state, a successful `set k v` followed
immediately by `get k` on the same store returns `Some v`. -/
theorem C7_set_then_get (s : State) (h : Reachable s) (k v : List Nat) :
    (Kvs.set s k v .none).2 = Option.none ∧
    get (Kvs.set s k v .none).1 k = .ok (some v) := by
  obtain ⟨M, hM⟩ := reachable_inv h
  obtain ⟨e1, e2⟩ := set_inv hM k v
  refine ⟨e1, ?_⟩
  rw [get_of_inv e2 k]
  simp

/-- C7 witness: set then get of key "a" on the fresh store. -/
theorem C7_set_then_get_witness :
    (Kvs.set emptyStore [97] [98] .none).2 = Option.none ∧
    get (Kvs.set emptyStore [97] [98] .none).1 [97] = .ok (some [98]) :=
  C7_set_then_get emptyStore Reachable.base [97] [98]

/-- C8: in every reachable state (open, any successful mutations, any
compactions they trigger, re-opens), the write-position counter equals the
log file's size in bytes. -/
theorem C8_counter_is_file_size (s : State) (h : Reachable s) :
    s.numBytesWritten = s.file.length := by
  obtain ⟨M, hM⟩ := reachable_inv h
  exact hM.2.1

/-- C8 witness: the counter equals the file size on the fresh store. -/
theorem C8_counter_is_file_size_witness :
    emptyStore.numBytesWritten = emptyStore.file.length :=
  C8_counter_is_file_size emptyStore Reachable.base

/-- C9: when either write of `set` fails with an I/O error, `set` returns
the error and the index is unchanged (it is only inserted after both
writes), but `num_unnecessary_entries` was already bumped for a present key
and is not rolled back. -/
theorem C9_faulted_set (s : State) (k v : List Nat) (fault : SetFault)
    (h : fault ≠ SetFault.none) :
    (Kvs.set s k v fault).2 = some Err.ioError ∧
    (Kvs.set s k v fault).1.index = s.index ∧
    (Kvs.set s k v fault).1.numUnnecessaryEntries =
      (if (lookupIdx s.index k).isSome then s.numUnnecessaryEntries + 1
       else s.numUnnecessaryEntries) := by
  cases fault with
  | none => exact absurd rfl h
  | failRecord j => exact ⟨rfl, rfl, rfl⟩
  | failNewline => exact ⟨rfl, rfl, rfl⟩

/-- C9 witness: a failing newline write on the fresh store. -/
theorem C9_faulted_set_witness :
    SetFault.failNewline ≠ SetFault.none ∧
    ((Kvs.set emptyStore [97] [98] SetFault.failNewline).2 = some Err.ioError ∧
     (Kvs.set emptyStore [97] [98] SetFault.failNewline).1.index = emptyStore.index ∧
     (Kvs.set emptyStore [97] [98] SetFault.failNewline).1.numUnnecessaryEntries =
       (if (lookupIdx emptyStore.index [97]).isSome then emptyStore.numUnnecessaryEntries + 1
        else emptyStore.numUnnecessaryEntries)) :=
  ⟨by decide, C9_faulted_set emptyStore [97] [98] SetFault.failNewline (by decide)⟩

/-- C10: the engine accepts the empty-string key at its interface: for any
value (the empty string included), `set "" v` on the fresh store succeeds
and `get ""` returns `Some v`, exactly as for any other key. -/
theorem C10_empty_key_set_get (v : List Nat) :
    (Kvs.set emptyStore [] v .none).2 = Option.none ∧
    get (Kvs.set emptyStore [] v .none).1 [] = .ok (some v) := by
  obtain ⟨e1, e2⟩ := set_inv inv_empty [] v
  refine ⟨e1, ?_⟩
  rw [get_of_inv e2]
  simp

end Kvs
